import Mathlib

/-!
# kalam code generators: naming normalizer and type mapper

A shallow embedding of the pure helper functions of the `protoc-gen-kalam`,
`protoc-gen-klm/gen`, `protoc-gen-kotlinx` and `protoc` generator variants.

Go strings are byte sequences.  The conversions `[]rune(s)`, `string(r)` and
`for i, r := range s` are the language's UTF-8 decoding and encoding; they are
modelled below as the packages `unicode/utf8` and `strings` of the Go standard
library implement them.  The case
tables of Go's `unicode` package are not part of this repository, so the
mappings outside the ASCII range are a parameter (`CaseTable`); the ASCII fast
paths of `unicode.ToLower`, `unicode.ToUpper` and `unicode.IsUpper` are fixed.
-/

namespace Kalam

/-! ## Go strings -/

/-- One byte of a Go string. -/
abbrev Byte := Fin 256

/-- A Go `string`: an immutable sequence of bytes.  A Go `rune` (an `int32`
holding a code point) is an `Int`. -/
abbrev GoString := List Byte

/-- Go's conversion `byte(n)`: truncation to eight bits. -/
def byte (n : Nat) : Byte := ⟨n % 256, Nat.mod_lt _ (by decide)⟩

/-- The constant `utf8.RuneError`, U+FFFD. -/
def RuneError : Int := 0xFFFD

/-- The predicate `utf8.ValidRune`: a Unicode scalar value. -/
def ValidRune (r : Int) : Prop :=
  (0 ≤ r ∧ r < 0xD800) ∨ (0xDFFF < r ∧ r ≤ 0x10FFFF)

instance (r : Int) : Decidable (ValidRune r) := by
  unfold ValidRune; exact inferInstance

/-- UTF-8 encoding of one rune, as `string(r)` performs it: a rune that is not
a scalar value is encoded as U+FFFD. -/
def encodeRune (r : Int) : GoString :=
  let n := r.toNat
  if 0 ≤ r ∧ r ≤ 0x7F then [byte n]
  else if 0 ≤ r ∧ r ≤ 0x7FF then [byte (0xC0 + n / 64), byte (0x80 + n % 64)]
  else if r < 0 ∨ 0x10FFFF < r ∨ (0xD800 ≤ r ∧ r ≤ 0xDFFF) then [0xEF, 0xBF, 0xBD]
  else if r ≤ 0xFFFF then
    [byte (0xE0 + n / 4096), byte (0x80 + n / 64 % 64), byte (0x80 + n % 64)]
  else
    [byte (0xF0 + n / 262144), byte (0x80 + n / 4096 % 64),
     byte (0x80 + n / 64 % 64), byte (0x80 + n % 64)]

/-- The conversion `string(r)` of a rune slice. -/
def stringOfRunes : List Int → GoString
  | [] => []
  | r :: rs => encodeRune r ++ stringOfRunes rs

/-- A continuation byte, `0x80 ≤ b ≤ 0xBF`. -/
def isCont (b : Byte) : Bool := 0x80 ≤ b.val && b.val ≤ 0xBF

/-- Decoding of the first rune of a string with its width in bytes, as
`utf8.DecodeRuneInString` does it: a lead byte selects the width and the
accepted range of the second byte; truncated or ill-formed input yields
`(RuneError, 1)`, and the empty string `(RuneError, 0)`. -/
def decodeRune : GoString → Int × Nat
  | [] => (RuneError, 0)
  | b0 :: t =>
    if b0.val < 0x80 then ((b0.val : Int), 1)
    else if b0.val < 0xC2 then (RuneError, 1)
    else if b0.val < 0xE0 then
      match t with
      | [] => (RuneError, 1)
      | b1 :: _ =>
        if isCont b1 then (((b0.val % 32 * 64 + b1.val % 64 : Nat) : Int), 2)
        else (RuneError, 1)
    else if b0.val < 0xF0 then
      match t with
      | [] => (RuneError, 1)
      | b1 :: t1 =>
        if (if b0.val = 0xE0 then 0xA0 else 0x80) ≤ b1.val ∧
            b1.val ≤ (if b0.val = 0xED then 0x9F else 0xBF) then
          match t1 with
          | [] => (RuneError, 1)
          | b2 :: _ =>
            if isCont b2 then
              (((b0.val % 16 * 4096 + b1.val % 64 * 64 + b2.val % 64 : Nat) : Int), 3)
            else (RuneError, 1)
        else (RuneError, 1)
    else if b0.val < 0xF5 then
      match t with
      | [] => (RuneError, 1)
      | b1 :: t1 =>
        if (if b0.val = 0xF0 then 0x90 else 0x80) ≤ b1.val ∧
            b1.val ≤ (if b0.val = 0xF4 then 0x8F else 0xBF) then
          match t1 with
          | [] => (RuneError, 1)
          | b2 :: t2 =>
            if isCont b2 then
              match t2 with
              | [] => (RuneError, 1)
              | b3 :: _ =>
                if isCont b3 then
                  (((b0.val % 8 * 262144 + b1.val % 64 * 4096 + b2.val % 64 * 64
                      + b3.val % 64 : Nat) : Int), 4)
                else (RuneError, 1)
            else (RuneError, 1)
        else (RuneError, 1)
    else (RuneError, 1)

/-- Decoding of a whole string into `(rune, width)` pairs; `fuel` bounds the
number of runes and the length of the string is always enough. -/
def decodeFuel : Nat → GoString → List (Int × Nat)
  | 0, _ => []
  | _ + 1, [] => []
  | fuel + 1, b :: t =>
    let d := decodeRune (b :: t)
    d :: decodeFuel fuel ((b :: t).drop d.2)

/-- The runes of a string, each with the number of bytes it occupies. -/
def decode (s : GoString) : List (Int × Nat) := decodeFuel s.length s

/-- The conversion `[]rune(s)`. -/
def runes (s : GoString) : List Int := (decode s).map Prod.fst

/-- Byte offsets for `range`: pairs each decoded rune with its start index. -/
def withOffsets : Nat → List (Int × Nat) → List (Nat × Int)
  | _, [] => []
  | i, (r, w) :: rest => (i, r) :: withOffsets (i + w) rest

/-- The sequence of `(i, r)` pairs that `for i, r := range s` visits. -/
def rangeString (s : GoString) : List (Nat × Int) := withOffsets 0 (decode s)

/-- A Go string literal: the UTF-8 encoding of its characters. -/
def str (s : String) : GoString :=
  stringOfRunes (s.toList.map fun c => (c.toNat : Int))

/-! ## The `unicode` package -/

/-- The case tables of Go's `unicode` package for runes above U+007F. -/
structure CaseTable where
  /-- Upper-case mapping of a non-ASCII rune. -/
  upper : Int → Int
  /-- Lower-case mapping of a non-ASCII rune. -/
  lower : Int → Int
  /-- Membership of a non-ASCII rune in the category `Lu`. -/
  isUpper : Int → Bool

/-- The function `unicode.ToLower`: ASCII runes take the fast path. -/
def unicodeToLower (tbl : CaseTable) (r : Int) : Int :=
  if r ≤ 0x7F then
    if 0x41 ≤ r ∧ r ≤ 0x5A then r + 32 else r
  else tbl.lower r

/-- The function `unicode.ToUpper`: ASCII runes take the fast path. -/
def unicodeToUpper (tbl : CaseTable) (r : Int) : Int :=
  if r ≤ 0x7F then
    if 0x61 ≤ r ∧ r ≤ 0x7A then r - 32 else r
  else tbl.upper r

/-- The function `unicode.IsUpper`. -/
def unicodeIsUpper (tbl : CaseTable) (r : Int) : Bool :=
  if 0 ≤ r ∧ r ≤ 0x7F then decide (0x41 ≤ r ∧ r ≤ 0x5A)
  else tbl.isUpper r

/-- A table without any mapping outside ASCII. -/
def asciiTable : CaseTable := ⟨fun r => r, fun r => r, fun _ => false⟩

/-! ## The `strings` package -/

/-- The call `strings.Split(s, sep)` for a separator of one byte: the pieces
of `s` between the occurrences of `sep`; the empty string gives one empty
piece. -/
def splitByte (sep : Byte) : GoString → List GoString
  | [] => [[]]
  | b :: t =>
    if b = sep then [] :: splitByte sep t
    else
      match splitByte sep t with
      | [] => [[b]]
      | p :: ps => (b :: p) :: ps

/-- The function `strings.Join`. -/
def stringsJoin : List GoString → GoString → GoString
  | [], _ => []
  | [p], _ => p
  | p :: q :: rest, sep => p ++ sep ++ stringsJoin (q :: rest) sep

/-- The function `strings.Map`: every decoded rune is replaced by the UTF-8
encoding of its image, and dropped when the image is negative.  A byte that is
not part of a well-formed sequence decodes to U+FFFD first. -/
def stringsMap (mapping : Int → Int) (s : GoString) : GoString :=
  ((runes s).map fun c => if 0 ≤ mapping c then encodeRune (mapping c) else []).foldr
    (fun x acc => x ++ acc) []

/-- The function `strings.ToUpper`: a string of ASCII bytes is mapped byte by
byte, any other string goes through `strings.Map(unicode.ToUpper, s)`. -/
def stringsToUpper (tbl : CaseTable) (s : GoString) : GoString :=
  if s.all (fun b => decide (b.val < 0x80)) then
    s.map fun b => if 0x61 ≤ b.val ∧ b.val ≤ 0x7A then byte (b.val - 32) else b
  else stringsMap (unicodeToUpper tbl) s

/-! ## Naming normalizer -/

/-- The indices `i, i+1, ..., i+n-1` that a counting `for` loop visits. -/
def indexRange : Nat → Nat → List Nat
  | _, 0 => []
  | i, n + 1 => i :: indexRange (i + 1) n

/-- The assignment `r[0] = f(r[0])` on a rune slice.  Both call sites run it
only on the runes of a non-empty string, where index 0 is in range. -/
def mapFirst (f : Int → Int) : List Int → List Int
  | [] => []
  | r0 :: rs => f r0 :: rs

/-- The function `lowerFirst` of `protoc-gen-kalam/main.go`; `LowerFirst` of
`protoc-gen-klm/gen/gen.go` and `lowerFirst` of `main.go` and `protoc/main.go`
have the same body. -/
def lowerFirst (tbl : CaseTable) (s : GoString) : GoString :=
  if s = [] then s
  else stringOfRunes (mapFirst (unicodeToLower tbl) (runes s))

/-- One iteration of the loop of `lowerCamel`, at index `i`. -/
def lowerCamelStep (tbl : CaseTable) (parts : List GoString) (i : Nat) : List GoString :=
  if 0 < (parts.getD i []).length then
    parts.set i (stringOfRunes (mapFirst (unicodeToUpper tbl) (runes (parts.getD i []))))
  else parts

/-- The function `lowerCamel` of `protoc-gen-kalam/main.go` (`LowerCamel` of
`gen.go` has the same body): the loop visits the indices `1 .. len(parts)-1`
in order; the length of `parts` does not change while it runs. -/
def lowerCamel (tbl : CaseTable) (s : GoString) : GoString :=
  let parts := splitByte 0x5F s
  stringsJoin ((indexRange 1 (parts.length - 1)).foldl (lowerCamelStep tbl) parts) []

/-- The body of the loop of `toSnakeCase` for the pair `(i, r)`. -/
def toSnakeCaseStep (tbl : CaseTable) (result : List Int) (ir : Nat × Int) : List Int :=
  let result := if unicodeIsUpper tbl ir.2 && decide (0 < ir.1) then result ++ [0x5F] else result
  result ++ [unicodeToLower tbl ir.2]

/-- The function `toSnakeCase` of `protoc-gen-kalam/main.go`, `main.go` and
`protoc/main.go`. -/
def toSnakeCase (tbl : CaseTable) (s : GoString) : GoString :=
  stringOfRunes ((rangeString s).foldl (toSnakeCaseStep tbl) [])

/-- One iteration of the loop of `swiftTypePrefix`, at index `i`: `p` is the
current value of `parts[i]`. -/
def swiftTypePrefixStep (tbl : CaseTable) (parts : List GoString) (i : Nat) : List GoString :=
  let p := parts.getD i []
  if 0 < p.length then parts.set i (stringsToUpper tbl (p.take 1) ++ p.drop 1) else parts

/-- The function `swiftTypePrefix` of `protoc-gen-kalam/main.go`
(`SwiftTypePrefix` of `gen.go` has the same body). -/
def swiftTypePrefix (tbl : CaseTable) (pkg : GoString) : GoString :=
  if pkg = [] then []
  else
    let parts := splitByte 0x2E pkg
    stringsJoin ((indexRange 0 parts.length).foldl (swiftTypePrefixStep tbl) parts) (str "_")
      ++ str "_"

/-! ## Descriptors -/

/-- The type `protoreflect.Kind`: the eighteen named kinds and any other
value of the underlying integer type. -/
inductive Kind where
  | BoolKind | EnumKind | Int32Kind | Sint32Kind | Uint32Kind | Int64Kind | Sint64Kind
  | Uint64Kind | Sfixed32Kind | Fixed32Kind | FloatKind | Sfixed64Kind | Fixed64Kind
  | DoubleKind | StringKind | BytesKind | MessageKind | GroupKind
  | OtherKind
  deriving DecidableEq, Repr

/-- A value of an enum, `protogen.EnumValue`: `Desc.Name()` and `Desc.Number()`. -/
structure ProtoEnumValue where
  name : GoString
  number : Int
  deriving DecidableEq

/-- An enum, `protogen.Enum`: `Desc.Name()` and `Values`. -/
structure ProtoEnum where
  name : GoString
  values : List ProtoEnumValue
  deriving DecidableEq

/-- A message that a field or a method refers to, `protogen.Message`: its
`Desc.Name()`, which is all the generators read of it, and the package of the
file that declares it. -/
structure ProtoMessageRef where
  name : GoString
  package : GoString
  deriving DecidableEq

/-- A field, `protogen.Field`: `Desc.Name()`, `Desc.Number()`, `Desc.IsList()`,
`Desc.Kind()`, and the pointers `Enum` and `Message`, which are nil unless the
field is of enum kind, respectively of message or group kind. -/
structure ProtoField where
  name : GoString
  number : Int
  isList : Bool
  kind : Kind
  enum : Option ProtoEnum
  message : Option ProtoMessageRef
  deriving DecidableEq

/-! ## Type mapper

The result `none` stands for a run-time panic: the dereference of a nil
pointer or an index out of range. -/

/-- The function `kotlinScalarType` of `protoc-gen-kalam/main.go`
(`KotlinScalarType` of `gen.go`, `scalarType` of `protoc-gen-kotlinx`). -/
def kotlinScalarType (fd : ProtoField) (_lang : GoString) : Option GoString :=
  match fd.kind with
  | .BoolKind => some (str "Boolean")
  | .Int32Kind | .Sint32Kind | .Sfixed32Kind => some (str "Int")
  | .Int64Kind | .Sint64Kind | .Sfixed64Kind => some (str "Long")
  | .Uint32Kind | .Fixed32Kind => some (str "UInt")
  | .Uint64Kind | .Fixed64Kind => some (str "ULong")
  | .FloatKind => some (str "Float")
  | .DoubleKind => some (str "Double")
  | .StringKind => some (str "String")
  | .BytesKind => some (str "ByteArray")
  | .EnumKind => fd.enum.map fun e => e.name
  | .MessageKind | .GroupKind => fd.message.map fun m => m.name
  | _ => some (str "Any")

/-- The function `kotlinType` of `protoc-gen-kalam/main.go` (`KotlinType` of
`gen.go` is the same without the unused parameter `lang`). -/
def kotlinType (fd : ProtoField) (lang : GoString) : Option GoString :=
  if fd.isList then (kotlinScalarType fd lang).map fun t => str "List<" ++ t ++ str ">"
  else kotlinScalarType fd lang

/-- The function `kotlinDefault` of `protoc-gen-kalam/main.go` (`KotlinDefault`
of `gen.go` and `kotlinDefault` of `protoc-gen-kotlinx` have the same body). -/
def kotlinDefault (fd : ProtoField) : Option GoString :=
  if fd.isList then some (str "emptyList()")
  else
    match fd.kind with
    | .BoolKind => some (str "false")
    | .Int32Kind | .Sint32Kind | .Sfixed32Kind => some (str "0")
    | .Int64Kind | .Sint64Kind | .Sfixed64Kind => some (str "0L")
    | .Uint32Kind | .Fixed32Kind => some (str "0u")
    | .Uint64Kind | .Fixed64Kind => some (str "0uL")
    | .FloatKind => some (str "0f")
    | .DoubleKind => some (str "0.0")
    | .StringKind => some (str "\"\"")
    | .BytesKind => some (str "byteArrayOf()")
    | .EnumKind =>
      fd.enum.bind fun e =>
        if 0 < e.values.length then
          e.values.head?.map fun v => e.name ++ str "." ++ v.name
        else some (e.name ++ str ".UNKNOWN")
    | .MessageKind | .GroupKind => fd.message.map fun m => m.name ++ str "()"
    | _ => some (str "null")

/-! ## More of the `strings` package -/

/-- The function `strings.HasSuffix`. -/
def hasSuffix (s suffix : GoString) : Bool :=
  decide (suffix.length ≤ s.length) && decide (s.drop (s.length - suffix.length) = suffix)

/-- The function `strings.TrimSuffix`. -/
def trimSuffix (s suffix : GoString) : GoString :=
  if hasSuffix s suffix then s.take (s.length - suffix.length) else s

/-! ## Descriptors of a file -/

/-- A message declared in a file, `protogen.Message`: `Desc.Name()` and
`Fields`. -/
structure ProtoMessage where
  name : GoString
  fields : List ProtoField
  deriving DecidableEq

/-- A method, `protogen.Method`: `Desc.Name()`, the messages `Input` and
`Output`, and `Desc.IsStreamingServer()`. -/
structure ProtoMethod where
  name : GoString
  input : ProtoMessageRef
  output : ProtoMessageRef
  isStreamingServer : Bool
  deriving DecidableEq

/-- A service, `protogen.Service`: `Desc.Name()` and `Methods`. -/
structure ProtoService where
  name : GoString
  methods : List ProtoMethod
  deriving DecidableEq

/-- A file, `protogen.File`: `Desc.Path()`, `Desc.Package()`, `Enums`,
`Messages`, `Services` and the flag `Generate`. -/
structure ProtoFile where
  path : GoString
  package : GoString
  enums : List ProtoEnum
  messages : List ProtoMessage
  services : List ProtoService
  generate : Bool
  deriving DecidableEq

/-! ## Intermediate representation

The types of `protoc-gen-kalam/main.go`; `protoc-gen-klm/gen/gen.go` declares
the same ones.  An `int32` or `int` that holds a number of the descriptor is an
`Int`: the conversions `int32(...)` and `int(...)` in `buildEnum` and
`buildMessage` start from a 32-bit value and change nothing. -/

/-- The type `EnumValue`. -/
structure EnumValue where
  name : GoString
  number : Int
  deriving DecidableEq

/-- The type `Enum`. -/
structure Enum where
  name : GoString
  values : List EnumValue
  deriving DecidableEq

/-- The type `Field`. -/
structure Field where
  name : GoString
  kotlinType : GoString
  protoNumber : Int
  defaultValue : GoString
  deriving DecidableEq

/-- The type `Message`. -/
structure Message where
  name : GoString
  fields : List Field
  deriving DecidableEq

/-- The type `Method`. -/
structure Method where
  name : GoString
  methodName : GoString
  input : GoString
  output : GoString
  serverStreaming : Bool
  deriving DecidableEq

/-- The type `Service`; `prefixPath` is its field `Prefix`. -/
structure Service where
  name : GoString
  prefixPath : GoString
  methods : List Method
  deriving DecidableEq

/-- The type `FileData`. -/
structure FileData where
  fileName : GoString
  protoName : GoString
  packageName : GoString
  enums : List Enum
  messages : List Message
  services : List Service
  deriving DecidableEq

/-! ## IR builder -/

/-- The function `buildEnum` of `protoc-gen-kalam/main.go`. -/
def buildEnum (e : ProtoEnum) : Enum :=
  { name := e.name
    values := e.values.foldl (fun values v => values ++ [⟨v.name, v.number⟩]) [] }

/-- The function `buildMessage` of `protoc-gen-kalam/main.go`; `none` when
`kotlinType` or `kotlinDefault` panics on one of the fields. -/
def buildMessage (tbl : CaseTable) (m : ProtoMessage) (lang : GoString) : Option Message :=
  (m.fields.foldl
    (fun fields fd =>
      fields.bind fun fs =>
        (kotlinType fd lang).bind fun t =>
          (kotlinDefault fd).map fun d => fs ++ [⟨lowerCamel tbl fd.name, t, fd.number, d⟩])
    (some [])).map fun fields => { name := m.name, fields := fields }

/-- The list of methods that the inner loop of `buildFileData` builds for one
service. -/
def buildMethods (tbl : CaseTable) (typePrefix : GoString) (svc : ProtoService) : List Method :=
  svc.methods.foldl
    (fun methods m =>
      methods ++ [{ name := m.name
                    methodName := lowerFirst tbl m.name
                    input := typePrefix ++ m.input.name
                    output := typePrefix ++ m.output.name
                    serverStreaming := m.isStreamingServer }])
    []

/-- The loop over the services of `buildFileData`. -/
def buildServices (tbl : CaseTable) (typePrefix : GoString) (f : ProtoFile) (data : FileData) :
    FileData :=
  f.services.foldl
    (fun data svc =>
      { data with
        services := data.services ++
          [{ name := svc.name
             prefixPath := svc.name ++ str "/"
             methods := buildMethods tbl typePrefix svc }] })
    data

/-- The function `buildFileData` of `protoc-gen-kalam/main.go`; `none` when
`buildMessage` panics. -/
def buildFileData (tbl : CaseTable) (f : ProtoFile) (lang : GoString) : Option FileData :=
  let packageName :=
    if lang = str "kotlin" ∧ f.package = str "" then str "generated" else f.package
  let data : FileData :=
    { fileName := f.path
      protoName := trimSuffix f.path (str ".proto")
      packageName := packageName
      enums := []
      messages := []
      services := [] }
  let built : Option FileData :=
    if lang = str "kotlin" then
      let data := f.enums.foldl (fun data e => { data with enums := data.enums ++ [buildEnum e] })
        data
      f.messages.foldl
        (fun data m =>
          data.bind fun d =>
            (buildMessage tbl m lang).map fun msg => { d with messages := d.messages ++ [msg] })
        (some data)
    else some data
  built.map fun data =>
    let typePrefix := if lang = str "swift" then swiftTypePrefix tbl packageName else str ""
    buildServices tbl typePrefix f data

/-- The function `BuildFileData` of `protoc-gen-klm/gen/gen.go`: it builds no
enum and no message. -/
def BuildFileData (tbl : CaseTable) (f : ProtoFile) (lang : GoString) : FileData :=
  let packageName :=
    if lang = str "kotlin" ∧ f.package = str "" then str "generated" else f.package
  let data : FileData :=
    { fileName := f.path
      protoName := trimSuffix f.path (str ".proto")
      packageName := packageName
      enums := []
      messages := []
      services := [] }
  let typePrefix := if lang = str "swift" then swiftTypePrefix tbl packageName else str ""
  buildServices tbl typePrefix f data

/-- The package name that `buildServiceData` of `protoc/main.go` stores in
`ServiceData.PackageName` (lines 110 to 113). -/
def protocPackageName (f : ProtoFile) (lang : GoString) : GoString :=
  if lang = str "kotlin" ∧ f.package = str "" then str "generated" else f.package

/-! ## Driver

The templates and the runtime files are embedded files of the repository that
are not part of the sources at hand; what parsing, executing and reading them
gives is a parameter (`Assets`).  The callback of `main` runs inside
`protogen.Options.Run`, which builds the response of the plugin from the state
the callback leaves behind (`pluginResponse`): it carries the error of the
callback, or else the content of every generated file, and the content of a
file named `*.go` is what Go's parser and printer make of the text written to
it, which is a parameter as well (`Assets.formatGo`). -/

/-- A file registered with `gen.NewGeneratedFile` and what was written to it. -/
structure GeneratedFile where
  name : GoString
  content : GoString
  deriving DecidableEq

/-- A parsed template: `tmpl.Execute(g, data)` writes text to `g` and returns
an error or nil; the flag is `true` for nil.  When an error is returned the
text is what was written before it occurred. -/
structure Template where
  execute : FileData → GoString × Bool

/-- What a run takes from outside the sources at hand.  The embedded files:
`parseTemplate name` is `none` when `ParseFS` returns an error, `readRuntime
name` is `none` when `runtimeFS.ReadFile` does.  Go's parser and printer, which
`protogen` applies to the text of a generated file named `*.go`: `formatGo
text` is the printed source, `none` when the text does not parse or print. -/
structure Assets where
  parseTemplate : GoString → Option Template
  readRuntime : GoString → Option GoString
  formatGo : GoString → Option GoString

/-- The state of the plugin when the callback returns: the generated files
registered so far, and whether the callback returned an error. -/
structure CallbackResult where
  genFiles : List GeneratedFile
  failed : Bool
  deriving DecidableEq

/-- The response of the plugin, `gen.Response()`: when the callback returned
an error the response carries the error and no file. -/
structure Response where
  error : Bool
  files : List GeneratedFile
  deriving DecidableEq

/-- The method `Content` of `protogen.GeneratedFile`: the text written to the
file, and for a file whose name ends in `.go` that text parsed and printed;
`none` when it returns an error. -/
def generatedContent (assets : Assets) (g : GeneratedFile) : Option GoString :=
  if hasSuffix g.name (str ".go") then assets.formatGo g.content else some g.content

/-- The loop over the generated files in the method `Response` of
`protogen.Plugin`, from the files `acc` put in the response so far: an error
of `Content` ends it with a response that carries the error and no file. -/
def responseLoop (assets : Assets) : List GeneratedFile → List GeneratedFile → Response
  | [], acc => { error := false, files := acc }
  | g :: rest, acc =>
    match generatedContent assets g with
    | none => { error := true, files := [] }
    | some content => responseLoop assets rest (acc ++ [{ name := g.name, content := content }])

/-- The method `Response` of `protogen.Plugin`. -/
def pluginResponse (assets : Assets) (r : CallbackResult) : Response :=
  if r.failed then { error := true, files := [] } else responseLoop assets r.genFiles []

/-- The switch on `lang` that picks the extension in `main` of
`protoc-gen-kalam/main.go`. -/
def kalamExt (lang : GoString) : GoString :=
  if lang = str "kotlin" then str ".klm.kt"
  else if lang = str "swift" then str ".klm.swift"
  else str ".klm.dart"

/-- The map lookup that picks the extension in `Run` of
`protoc-gen-klm/gen/gen.go`; a missing key gives the empty string. -/
def klmExt (lang : GoString) : GoString :=
  if lang = str "kotlin" then str ".klm.kt"
  else if lang = str "swift" then str ".klm.swift"
  else if lang = str "dart" then str ".klm.dart"
  else str ""

/-- The name of the file generated for the schema file `path`, in `main` of
`protoc-gen-kalam/main.go`. -/
def kalamFileName (lang path : GoString) : GoString :=
  trimSuffix path (str ".proto") ++ kalamExt lang

/-- The name of the file generated for the schema file `path`, in `Run` of
`protoc-gen-klm/gen/gen.go`. -/
def klmFileName (lang path : GoString) : GoString :=
  trimSuffix path (str ".proto") ++ klmExt lang

/-- The loop over `gen.Files` in `main` of `protoc-gen-kalam/main.go`, from
the state `gen` of the generated files; `none` when `buildFileData` panics. -/
def kalamLoop (tbl : CaseTable) (tmpl : Template) (lang : GoString) :
    List ProtoFile → List GeneratedFile → Option CallbackResult
  | [], gen => some { genFiles := gen, failed := false }
  | f :: rest, gen =>
    if !f.generate then kalamLoop tbl tmpl lang rest gen
    else
      (buildFileData tbl f lang).bind fun data =>
        let out := tmpl.execute data
        let gen := gen ++ [{ name := kalamFileName lang f.path, content := out.1 }]
        if out.2 then kalamLoop tbl tmpl lang rest gen
        else some { genFiles := gen, failed := true }

/-- The runtime file that `main` of `protoc-gen-kalam/main.go` copies, as
`(runtimeFile, runtimeOut)`; both are empty for a language without one. -/
def kalamRuntime (lang : GoString) : GoString × GoString :=
  if lang = str "dart" then (str "runtime/kalam.dart", str "kalam.dart")
  else if lang = str "swift" then (str "runtime/kalam.swift", str "kalam.swift")
  else (str "", str "")

/-- The callback of `main` of `protoc-gen-kalam/main.go`, for the language
`lang` read from the parameter of the request. -/
def kalamCallback (tbl : CaseTable) (assets : Assets) (lang : GoString)
    (files : List ProtoFile) : Option CallbackResult :=
  match assets.parseTemplate (str "templates/" ++ lang ++ str ".tmpl") with
  | none => some { genFiles := [], failed := true }
  | some tmpl =>
    (kalamLoop tbl tmpl lang files []).bind fun r =>
      if r.failed then some r
      else if (kalamRuntime lang).1 ≠ str "" then
        match assets.readRuntime (kalamRuntime lang).1 with
        | none => some { genFiles := r.genFiles, failed := true }
        | some runtimeData =>
          some { genFiles := r.genFiles ++
                  [{ name := (kalamRuntime lang).2, content := runtimeData ++ str "\n" }]
                 failed := false }
      else some r

/-- The run of `protoc-gen-kalam`: the response written to the caller, `none`
when the process panics and writes none. -/
def kalamRun (tbl : CaseTable) (assets : Assets) (lang : GoString) (files : List ProtoFile) :
    Option Response :=
  (kalamCallback tbl assets lang files).map (pluginResponse assets)

/-- The loop over `p.Files` in `Run` of `protoc-gen-klm/gen/gen.go`. -/
def klmLoop (tbl : CaseTable) (tmpl : Template) (lang : GoString) :
    List ProtoFile → List GeneratedFile → CallbackResult
  | [], gen => { genFiles := gen, failed := false }
  | f :: rest, gen =>
    if !f.generate then klmLoop tbl tmpl lang rest gen
    else
      let out := tmpl.execute (BuildFileData tbl f lang)
      let gen := gen ++ [{ name := klmFileName lang f.path, content := out.1 }]
      if out.2 then klmLoop tbl tmpl lang rest gen
      else { genFiles := gen, failed := true }

/-- The callback of `Run` of `protoc-gen-klm/gen/gen.go`. -/
def klmCallback (tbl : CaseTable) (assets : Assets) (lang : GoString)
    (files : List ProtoFile) : CallbackResult :=
  match assets.parseTemplate (str "templates/" ++ lang ++ str ".tmpl") with
  | none => { genFiles := [], failed := true }
  | some tmpl => klmLoop tbl tmpl lang files []

/-- The run of a `protoc-gen-klm` generator: the response written to the
caller. -/
def klmRun (tbl : CaseTable) (assets : Assets) (lang : GoString) (files : List ProtoFile) :
    Response :=
  pluginResponse assets (klmCallback tbl assets lang files)

/-- The files a caller of the generator can observe: those of the response,
none when there is no response. -/
def observableFiles : Option Response → List GeneratedFile
  | none => []
  | some r => r.files

/-! ## The `protoc-gen-kotlinx` variant of the naming normalizer -/

namespace Kotlinx

/-- One iteration of the loop of `lowerCamel` of `protoc-gen-kotlinx/main.go`,
at index `i`: the assignment `r[0] = 'A' + (r[0] - 'a')` is arithmetic on
`int32`; a rune of a string is at most `0x10FFFF`, so it does not overflow. -/
def lowerCamelStep (parts : List GoString) (i : Nat) : List GoString :=
  if 0 < (parts.getD i []).length then
    parts.set i (stringOfRunes (mapFirst (fun r => 0x41 + (r - 0x61)) (runes (parts.getD i []))))
  else parts

/-- The function `lowerCamel` of `protoc-gen-kotlinx/main.go`. -/
def lowerCamel (s : GoString) : GoString :=
  let parts := splitByte 0x5F s
  stringsJoin ((indexRange 1 (parts.length - 1)).foldl lowerCamelStep parts) []

end Kotlinx

/-! ## Vocabulary of the statements -/

/-- What `decode` reads back after a rune went through `string(r)`. -/
def sanitize (r : Int) : Int := if ValidRune r then r else RuneError

/-- A string that is empty or starts with a byte that is not a continuation
byte: appending it never changes how the bytes before it decode. -/
def StartsClean : GoString → Prop
  | [] => True
  | c :: _ => isCont c = false

/-- A segment that is empty or starts with an ASCII byte. -/
def AsciiLed : GoString → Prop
  | [] => True
  | b :: _ => b.val < 0x80

instance (p : GoString) : Decidable (AsciiLed p) :=
  match p with
  | [] => isTrue trivial
  | b :: _ => inferInstanceAs (Decidable (b.val < 0x80))

/-- A string of ASCII bytes only. -/
def IsAscii (s : GoString) : Prop := ∀ b ∈ s, b.val < 0x80

instance (s : GoString) : Decidable (IsAscii s) :=
  inferInstanceAs (Decidable (∀ b ∈ s, b.val < 0x80))

/-! ## The functions in the words of the specification -/

/-- A segment with its first code point upper-cased, the code points after it
kept; the empty segment stays empty. -/
def upperFirstSegment (tbl : CaseTable) (p : GoString) : GoString :=
  match runes p with
  | [] => []
  | r0 :: rs => stringOfRunes (unicodeToUpper tbl r0 :: rs)

/-- Concatenation of a list of strings with no separator. -/
def concatAll : List GoString → GoString
  | [] => []
  | p :: ps => p ++ concatAll ps

/-- The specification of `lowerCamel`: split on `_`, keep the first segment,
upper-case the first code point of every later non-empty segment, concatenate. -/
def lowerCamelSpec (tbl : CaseTable) (s : GoString) : GoString :=
  match splitByte 0x5F s with
  | [] => []
  | first :: rest => first ++ concatAll (rest.map (upperFirstSegment tbl))

/-- The specification of `toSnakeCase` on the code points after the first
one: `_` goes before an upper-case code point, every code point is lowered. -/
def snakeTail (tbl : CaseTable) : List Int → List Int
  | [] => []
  | r :: rs =>
    (if unicodeIsUpper tbl r then [0x5F, unicodeToLower tbl r] else [unicodeToLower tbl r])
      ++ snakeTail tbl rs

/-- The specification of `toSnakeCase`: the first code point is only lowered. -/
def toSnakeCaseSpec (tbl : CaseTable) (s : GoString) : GoString :=
  match runes s with
  | [] => []
  | r0 :: rs => stringOfRunes (unicodeToLower tbl r0 :: snakeTail tbl rs)

/-- A segment of a package name with its first code point upper-cased and the
bytes after that code point unchanged; the empty segment stays empty. -/
def upperFirstKeepRest (tbl : CaseTable) (p : GoString) : GoString :=
  if p = [] then []
  else encodeRune (unicodeToUpper tbl (decodeRune p).1) ++ p.drop (decodeRune p).2

/-- The specification of `swiftTypePrefix`. -/
def swiftTypePrefixSpec (tbl : CaseTable) (pkg : GoString) : GoString :=
  if pkg = [] then []
  else stringsJoin ((splitByte 0x2E pkg).map (upperFirstKeepRest tbl)) (str "_") ++ str "_"

/-- The type table of the specification for a singular field. -/
def kotlinTypeTable (fd : ProtoField) : Option GoString :=
  if fd.kind = .BoolKind then some (str "Boolean")
  else if fd.kind = .Int32Kind ∨ fd.kind = .Sint32Kind ∨ fd.kind = .Sfixed32Kind then
    some (str "Int")
  else if fd.kind = .Int64Kind ∨ fd.kind = .Sint64Kind ∨ fd.kind = .Sfixed64Kind then
    some (str "Long")
  else if fd.kind = .Uint32Kind ∨ fd.kind = .Fixed32Kind then some (str "UInt")
  else if fd.kind = .Uint64Kind ∨ fd.kind = .Fixed64Kind then some (str "ULong")
  else if fd.kind = .FloatKind then some (str "Float")
  else if fd.kind = .DoubleKind then some (str "Double")
  else if fd.kind = .StringKind then some (str "String")
  else if fd.kind = .BytesKind then some (str "ByteArray")
  else if fd.kind = .EnumKind then fd.enum.map fun e => e.name
  else if fd.kind = .MessageKind ∨ fd.kind = .GroupKind then fd.message.map fun m => m.name
  else some (str "Any")

/-- The default-value table of the specification for a singular field that is
not of enum kind. -/
def kotlinDefaultTable (fd : ProtoField) : Option GoString :=
  if fd.kind = .BoolKind then some (str "false")
  else if fd.kind = .Int32Kind ∨ fd.kind = .Sint32Kind ∨ fd.kind = .Sfixed32Kind then
    some (str "0")
  else if fd.kind = .Int64Kind ∨ fd.kind = .Sint64Kind ∨ fd.kind = .Sfixed64Kind then
    some (str "0L")
  else if fd.kind = .Uint32Kind ∨ fd.kind = .Fixed32Kind then some (str "0u")
  else if fd.kind = .Uint64Kind ∨ fd.kind = .Fixed64Kind then some (str "0uL")
  else if fd.kind = .FloatKind then some (str "0" ++ str "f")
  else if fd.kind = .DoubleKind then some (str "0" ++ str ".0")
  else if fd.kind = .StringKind then some (str "\"\"")
  else if fd.kind = .BytesKind then some (str "byteArrayOf()")
  else if fd.kind = .MessageKind ∨ fd.kind = .GroupKind then
    fd.message.map fun m => m.name ++ str "()"
  else some (str "null")

/-- A field as `protogen` builds it: the pointer `Enum` is set on a field of
enum kind and the pointer `Message` on a field of message or group kind. -/
def WellFormedField (fd : ProtoField) : Prop :=
  (fd.kind = .EnumKind → fd.enum.isSome = true) ∧
  (fd.kind = .MessageKind ∨ fd.kind = .GroupKind → fd.message.isSome = true)

instance (fd : ProtoField) : Decidable (WellFormedField fd) :=
  inferInstanceAs (Decidable (_ ∧ _))

/-- A file all of whose fields are as `protogen` builds them. -/
def WellFormedFile (f : ProtoFile) : Prop :=
  ∀ m ∈ f.messages, ∀ fd ∈ m.fields, WellFormedField fd

instance (f : ProtoFile) : Decidable (WellFormedFile f) :=
  inferInstanceAs (Decidable (∀ m ∈ f.messages, ∀ fd ∈ m.fields, WellFormedField fd))

/-- The services of `data` are those declared in `f`, in order and under their
declared names, each with the prefix `Name + "/"` and with its declared
methods, in order and under their declared names, with the call name
`lowerFirst(Name)` and the server-streaming flag of the descriptor. -/
def ServicesAsDeclared (tbl : CaseTable) (f : ProtoFile) (data : FileData) : Prop :=
  data.services.map (fun s => (s.name, s.prefixPath))
    = f.services.map (fun svc => (svc.name, svc.name ++ str "/")) ∧
  data.services.map (fun s => s.methods.map fun m => (m.name, m.methodName, m.serverStreaming))
    = f.services.map
        (fun svc => svc.methods.map fun m => (m.name, lowerFirst tbl m.name, m.isStreamingServer))

/-- The input and output types of the methods of `data` are the simple names
of the messages the declared methods refer to, for `swift` behind the type
prefix of the package of `f`. -/
def TypeRefsAsSpecified (tbl : CaseTable) (f : ProtoFile) (lang : GoString) (data : FileData) :
    Prop :=
  data.services.map (fun s => s.methods.map fun m => (m.input, m.output))
    = f.services.map (fun svc => svc.methods.map fun m =>
        if lang = str "swift" then
          (swiftTypePrefix tbl f.package ++ m.input.name,
            swiftTypePrefix tbl f.package ++ m.output.name)
        else (m.input.name, m.output.name))

/-- The package name of the specification. -/
def PackageNameAsSpecified (f : ProtoFile) (lang : GoString) (packageName : GoString) : Prop :=
  (packageName = str "generated" ↔
    (lang = str "kotlin" ∧ f.package = str "") ∨ f.package = str "generated") ∧
  (¬ ((lang = str "kotlin" ∧ f.package = str "") ∨ f.package = str "generated") →
    packageName = f.package)

/-- The enums and messages of `data` are those declared in `f`, in order, with
every value and every field. -/
def DeclarationsAsDeclared (tbl : CaseTable) (f : ProtoFile) (lang : GoString)
    (data : FileData) : Prop :=
  data.enums = f.enums.map (fun e => ⟨e.name, e.values.map fun v => ⟨v.name, v.number⟩⟩) ∧
  data.messages.map (fun m => m.name) = f.messages.map (fun m => m.name) ∧
  data.messages.map
      (fun m => m.fields.map fun x =>
        (x.name, x.protoNumber, some x.kotlinType, some x.defaultValue))
    = f.messages.map
        (fun m => m.fields.map fun fd =>
          (lowerCamel tbl fd.name, fd.number, kotlinType fd lang, kotlinDefault fd))

/-- An ASCII lower-case letter. -/
def isLowerByte (b : Byte) : Bool := decide (0x61 ≤ b.val ∧ b.val ≤ 0x7A)

/-- An ASCII digit. -/
def isDigitByte (b : Byte) : Bool := decide (0x30 ≤ b.val ∧ b.val ≤ 0x39)

/-- A segment of a well-formed field name: an ASCII lower-case letter followed
by ASCII lower-case letters and digits. -/
def IsFieldSegment : GoString → Prop
  | [] => False
  | c :: t => isLowerByte c = true ∧ ∀ b ∈ t, isLowerByte b = true ∨ isDigitByte b = true

instance (p : GoString) : Decidable (IsFieldSegment p) :=
  match p with
  | [] => isFalse (fun h => h)
  | c :: t =>
    inferInstanceAs
      (Decidable (isLowerByte c = true ∧ ∀ b ∈ t, isLowerByte b = true ∨ isDigitByte b = true))

/-- The schema file of the end-to-end scenario: package `chat`, the message
`Msg` with the one field `string text = 1`, and the service `Chat` with the
one method `Send(Msg) returns (Msg)`, not streaming. -/
def chatFile (path : GoString) (generate : Bool) : ProtoFile :=
  { path := path
    package := str "chat"
    enums := []
    messages := [⟨str "Msg", [⟨str "text", 1, false, .StringKind, none, none⟩]⟩]
    services :=
      [⟨str "Chat", [⟨str "Send", ⟨str "Msg", str "chat"⟩, ⟨str "Msg", str "chat"⟩, false⟩]⟩]
    generate := generate }

/-- A schema file of package `shop.v1` that declares the enum `Status`, with
two values of the same number, and the message `Order`, and whose service
refers to the message `Money` of the package `common`. -/
def shopFile : ProtoFile :=
  { path := str "shop/v1/shop.proto"
    package := str "shop.v1"
    enums := [⟨str "Status", [⟨str "OPEN", 0⟩, ⟨str "STARTED", 0⟩, ⟨str "DONE", 2⟩]⟩]
    messages :=
      [⟨str "Order",
        [⟨str "order_id", 1, false, .Uint64Kind, none, none⟩,
         ⟨str "status", 2, false, .EnumKind, some ⟨str "Status", [⟨str "OPEN", 0⟩]⟩, none⟩,
         ⟨str "line_items", 3, true, .MessageKind, none, some ⟨str "Item", str "shop.v1"⟩⟩]⟩]
    services :=
      [⟨str "Shop",
        [⟨str "PriceOf", ⟨str "Order", str "shop.v1"⟩, ⟨str "Money", str "common"⟩, false⟩,
         ⟨str "Watch", ⟨str "Order", str "shop.v1"⟩, ⟨str "Order", str "shop.v1"⟩, true⟩]⟩]
    generate := true }

/-- A template that writes the proto name of the file and fails, after
writing, on a file of the package `bad`. -/
def sampleTemplate : Template :=
  ⟨fun d => (d.protoName, decide (d.packageName ≠ str "bad"))⟩

/-- Assets in which every template parses to `sampleTemplate`, every runtime
file reads as its own name, and no text parses as Go source. -/
def sampleAssets : Assets :=
  ⟨fun _ => some sampleTemplate, fun name => some name, fun _ => none⟩

/-- A schema file of the package `bad`. -/
def badFile : ProtoFile :=
  { path := str "b.proto", package := str "bad", enums := [], messages := [], services := []
    generate := true }

/-- A schema file whose flag is unset and that `buildFileData` cannot build
for `kotlin`: its field of enum kind has no enum. -/
def skippedFile : ProtoFile :=
  { path := str "skipped.proto", package := str "skipped", enums := []
    messages := [⟨str "Broken", [⟨str "kind", 1, false, .EnumKind, none, none⟩]⟩]
    services := [], generate := false }

/-- A segment that is empty or starts with an ASCII lower-case letter. -/
def LowerLed : GoString → Prop
  | [] => True
  | b :: _ => isLowerByte b = true

instance (p : GoString) : Decidable (LowerLed p) :=
  match p with
  | [] => isTrue trivial
  | b :: _ => inferInstanceAs (Decidable (isLowerByte b = true))

/-- What the loop of `lowerCamel` of `protoc-gen-kotlinx` puts in the place of
a later segment. -/
def shiftFirstSegment (p : GoString) : GoString :=
  stringOfRunes (mapFirst (fun r => 0x41 + (r - 0x61)) (runes p))

/-! ## UTF-8 lemmas -/

@[simp] theorem byte_val (n : Nat) : (byte n).val = n % 256 := rfl

theorem decodeRune_one (b0 : Byte) (t : GoString) (h : b0.val < 0x80) :
    decodeRune (b0 :: t) = ((b0.val : Int), 1) := by
  simp [decodeRune, h]

theorem decodeRune_two (b0 b1 : Byte) (t : GoString)
    (h0 : 0xC2 ≤ b0.val ∧ b0.val < 0xE0) (h1 : 0x80 ≤ b1.val ∧ b1.val ≤ 0xBF) :
    decodeRune (b0 :: b1 :: t) = (((b0.val % 32 * 64 + b1.val % 64 : Nat) : Int), 2) := by
  have a1 : ¬ b0.val < 0x80 := by omega
  have a2 : ¬ b0.val < 0xC2 := by omega
  simp only [decodeRune, isCont, a1, a2, h0.2, h1.1, h1.2, if_true, if_false, decide_True,
    Bool.and_self]

theorem decodeRune_three (b0 b1 b2 : Byte) (t : GoString)
    (h0 : 0xE0 ≤ b0.val ∧ b0.val < 0xF0)
    (h1 : (if b0.val = 0xE0 then 0xA0 else 0x80) ≤ b1.val ∧
          b1.val ≤ (if b0.val = 0xED then 0x9F else 0xBF))
    (h2 : 0x80 ≤ b2.val ∧ b2.val ≤ 0xBF) :
    decodeRune (b0 :: b1 :: b2 :: t)
      = (((b0.val % 16 * 4096 + b1.val % 64 * 64 + b2.val % 64 : Nat) : Int), 3) := by
  have a1 : ¬ b0.val < 0x80 := by omega
  have a2 : ¬ b0.val < 0xC2 := by omega
  have a3 : ¬ b0.val < 0xE0 := by omega
  simp only [decodeRune, isCont, a1, a2, a3, h0.2, h1, h2.1, h2.2, if_true, if_false,
    decide_True, Bool.and_self, and_self]

theorem decodeRune_four (b0 b1 b2 b3 : Byte) (t : GoString)
    (h0 : 0xF0 ≤ b0.val ∧ b0.val < 0xF5)
    (h1 : (if b0.val = 0xF0 then 0x90 else 0x80) ≤ b1.val ∧
          b1.val ≤ (if b0.val = 0xF4 then 0x8F else 0xBF))
    (h2 : 0x80 ≤ b2.val ∧ b2.val ≤ 0xBF) (h3 : 0x80 ≤ b3.val ∧ b3.val ≤ 0xBF) :
    decodeRune (b0 :: b1 :: b2 :: b3 :: t)
      = (((b0.val % 8 * 262144 + b1.val % 64 * 4096 + b2.val % 64 * 64 + b3.val % 64 : Nat) : Int),
          4) := by
  have a1 : ¬ b0.val < 0x80 := by omega
  have a2 : ¬ b0.val < 0xC2 := by omega
  have a3 : ¬ b0.val < 0xE0 := by omega
  have a4 : ¬ b0.val < 0xF0 := by omega
  simp only [decodeRune, isCont, a1, a2, a3, a4, h0.2, h1, h2.1, h2.2, h3.1, h3.2, if_true,
    if_false, decide_True, Bool.and_self, and_self]

theorem encodeRune_invalid (r : Int) (h : ¬ ValidRune r) : encodeRune r = [0xEF, 0xBF, 0xBD] := by
  unfold ValidRune at h
  unfold encodeRune
  simp only []
  rw [if_neg (show ¬ (0 ≤ r ∧ r ≤ 0x7F) by omega), if_neg (show ¬ (0 ≤ r ∧ r ≤ 0x7FF) by omega),
    if_pos (show r < 0 ∨ 0x10FFFF < r ∨ (0xD800 ≤ r ∧ r ≤ 0xDFFF) by omega)]

theorem encodeRune_one (n : Nat) (h : n ≤ 0x7F) : encodeRune (n : Int) = [byte n] := by
  unfold encodeRune
  simp only [Int.toNat_ofNat]
  rw [if_pos (show (0 ≤ (n : Int) ∧ (n : Int) ≤ 0x7F) by omega)]

theorem encodeRune_two (n : Nat) (h1 : 0x7F < n) (h2 : n ≤ 0x7FF) :
    encodeRune (n : Int) = [byte (0xC0 + n / 64), byte (0x80 + n % 64)] := by
  unfold encodeRune
  simp only [Int.toNat_ofNat]
  rw [if_neg (show ¬ (0 ≤ (n : Int) ∧ (n : Int) ≤ 0x7F) by omega),
    if_pos (show (0 ≤ (n : Int) ∧ (n : Int) ≤ 0x7FF) by omega)]

theorem encodeRune_three (n : Nat) (h1 : 0x7FF < n) (h2 : n ≤ 0xFFFF)
    (h3 : n < 0xD800 ∨ 0xDFFF < n) :
    encodeRune (n : Int)
      = [byte (0xE0 + n / 4096), byte (0x80 + n / 64 % 64), byte (0x80 + n % 64)] := by
  unfold encodeRune
  simp only [Int.toNat_ofNat]
  rw [if_neg (show ¬ (0 ≤ (n : Int) ∧ (n : Int) ≤ 0x7F) by omega),
    if_neg (show ¬ (0 ≤ (n : Int) ∧ (n : Int) ≤ 0x7FF) by omega),
    if_neg (show ¬ ((n : Int) < 0 ∨ 0x10FFFF < (n : Int) ∨ (0xD800 ≤ (n : Int) ∧ (n : Int) ≤ 0xDFFF))
      by omega),
    if_pos (show (n : Int) ≤ 0xFFFF by omega)]

theorem encodeRune_four (n : Nat) (h1 : 0xFFFF < n) (h2 : n ≤ 0x10FFFF) :
    encodeRune (n : Int)
      = [byte (0xF0 + n / 262144), byte (0x80 + n / 4096 % 64), byte (0x80 + n / 64 % 64),
          byte (0x80 + n % 64)] := by
  unfold encodeRune
  simp only [Int.toNat_ofNat]
  rw [if_neg (show ¬ (0 ≤ (n : Int) ∧ (n : Int) ≤ 0x7F) by omega),
    if_neg (show ¬ (0 ≤ (n : Int) ∧ (n : Int) ≤ 0x7FF) by omega),
    if_neg (show ¬ ((n : Int) < 0 ∨ 0x10FFFF < (n : Int) ∨ (0xD800 ≤ (n : Int) ∧ (n : Int) ≤ 0xDFFF))
      by omega),
    if_neg (show ¬ (n : Int) ≤ 0xFFFF by omega)]

theorem decodeRune_encodeRune_valid (n : Nat) (hv : ValidRune (n : Int)) (t : GoString) :
    decodeRune (encodeRune (n : Int) ++ t) = ((n : Int), (encodeRune (n : Int)).length) := by
  unfold ValidRune at hv
  by_cases c1 : n ≤ 0x7F
  · rw [encodeRune_one n c1]
    simp only [List.singleton_append, List.length_singleton]
    rw [decodeRune_one _ _ (by simp only [byte_val]; omega)]
    simp only [byte_val, Prod.mk.injEq, and_true]
    omega
  by_cases c2 : n ≤ 0x7FF
  · rw [encodeRune_two n (by omega) c2]
    simp only [List.cons_append, List.nil_append, List.length_cons, List.length_nil]
    rw [decodeRune_two _ _ _ (by simp only [byte_val]; omega) (by simp only [byte_val]; omega)]
    simp only [byte_val, Prod.mk.injEq, and_true]
    omega
  by_cases c3 : n ≤ 0xFFFF
  · rw [encodeRune_three n (by omega) c3 (by omega)]
    simp only [List.cons_append, List.nil_append, List.length_cons, List.length_nil]
    rw [decodeRune_three _ _ _ _ (by simp only [byte_val]; omega)
      (by simp only [byte_val]; split <;> split <;> omega) (by simp only [byte_val]; omega)]
    simp only [byte_val, Prod.mk.injEq, and_true]
    omega
  · rw [encodeRune_four n (by omega) (by omega)]
    simp only [List.cons_append, List.nil_append, List.length_cons, List.length_nil]
    rw [decodeRune_four _ _ _ _ _ (by simp only [byte_val]; omega)
      (by simp only [byte_val]; split <;> split <;> omega) (by simp only [byte_val]; omega)
      (by simp only [byte_val]; omega)]
    simp only [byte_val, Prod.mk.injEq, and_true]
    omega

theorem decodeRune_encodeRune (r : Int) (t : GoString) :
    decodeRune (encodeRune r ++ t) = (sanitize r, (encodeRune r).length) := by
  by_cases hv : ValidRune r
  · have h0 : 0 ≤ r := by unfold ValidRune at hv; omega
    obtain ⟨n, rfl⟩ := Int.eq_ofNat_of_zero_le h0
    rw [decodeRune_encodeRune_valid n hv, sanitize, if_pos hv]
  · rw [encodeRune_invalid r hv, sanitize, if_neg hv]
    rfl

theorem decodeRune_width (b : Byte) (t : GoString) : 1 ≤ (decodeRune (b :: t)).2 := by
  simp only [decodeRune]
  repeat' split
  all_goals first | exact le_refl _ | (simp only []; omega)

theorem decodeRune_valid (s : GoString) : ValidRune (decodeRune s).1 := by
  unfold ValidRune decodeRune
  simp only [RuneError, isCont, Bool.and_eq_true, decide_eq_true_eq]
  repeat' split
  all_goals (simp only []; omega)

theorem decodeRune_prefix4 (b0 b1 b2 b3 : Byte) (t u : GoString) :
    decodeRune (b0 :: b1 :: b2 :: b3 :: t) = decodeRune (b0 :: b1 :: b2 :: b3 :: u) := by
  simp only [decodeRune]

theorem decodeRune_append1 (b0 c : Byte) (v : GoString) (hv : isCont c = false) :
    decodeRune (b0 :: c :: v) = decodeRune [b0] := by
  simp only [isCont, Bool.and_eq_false_iff, decide_eq_false_iff_not] at hv
  simp only [decodeRune, isCont, Bool.and_eq_true, decide_eq_true_eq]
  repeat' split
  all_goals first | rfl | (exfalso; omega)

theorem decodeRune_append2 (b0 b1 c : Byte) (v : GoString) (hv : isCont c = false) :
    decodeRune (b0 :: b1 :: c :: v) = decodeRune [b0, b1] := by
  simp only [isCont, Bool.and_eq_false_iff, decide_eq_false_iff_not] at hv
  simp only [decodeRune, isCont, Bool.and_eq_true, decide_eq_true_eq]
  repeat' split
  all_goals first | rfl | (exfalso; omega)

theorem decodeRune_append3 (b0 b1 b2 c : Byte) (v : GoString) (hv : isCont c = false) :
    decodeRune (b0 :: b1 :: b2 :: c :: v) = decodeRune [b0, b1, b2] := by
  simp only [isCont, Bool.and_eq_false_iff, decide_eq_false_iff_not] at hv
  simp only [decodeRune, isCont, Bool.and_eq_true, decide_eq_true_eq]
  repeat' split
  all_goals first | rfl | (exfalso; omega)

theorem decodeRune_append (a v : GoString) (ha : a ≠ []) (hv : StartsClean v) :
    decodeRune (a ++ v) = decodeRune a := by
  rcases v with _ | ⟨c, v⟩
  · rw [List.append_nil]
  rcases a with _ | ⟨b0, _ | ⟨b1, _ | ⟨b2, _ | ⟨b3, t⟩⟩⟩⟩
  · exact absurd rfl ha
  · exact decodeRune_append1 b0 c v hv
  · exact decodeRune_append2 b0 b1 c v hv
  · exact decodeRune_append3 b0 b1 b2 c v hv
  · exact decodeRune_prefix4 b0 b1 b2 b3 _ _

theorem decodeFuel_stable (n : Nat) : ∀ (m : Nat) (s : GoString), s.length ≤ n → s.length ≤ m →
    decodeFuel n s = decodeFuel m s := by
  induction n with
  | zero =>
    intro m s hn _
    have : s = [] := List.length_eq_zero.mp (by omega)
    subst this
    cases m <;> rfl
  | succ n ih =>
    intro m s hn hm
    cases s with
    | nil => cases m <;> rfl
    | cons b t =>
      cases m with
      | zero => simp at hm
      | succ m =>
        have hw := decodeRune_width b t
        simp only [decodeFuel]
        have hl : ((b :: t).drop (decodeRune (b :: t)).2).length ≤ t.length := by
          simp only [List.length_drop, List.length_cons]; omega
        simp only [List.length_cons] at hn hm
        rw [ih m _ (by omega) (by omega)]

theorem decode_nil : decode [] = [] := rfl

theorem decode_cons (b : Byte) (t : GoString) :
    decode (b :: t) = decodeRune (b :: t) :: decode ((b :: t).drop (decodeRune (b :: t)).2) := by
  have hw := decodeRune_width b t
  unfold decode
  simp only [List.length_cons, decodeFuel]
  rw [decodeFuel_stable t.length _ _ (by simp only [List.length_drop, List.length_cons]; omega)
    (le_refl _)]

theorem decodeRune_width_le (b : Byte) (t : GoString) :
    (decodeRune (b :: t)).2 ≤ (b :: t).length := by
  rcases t with _ | ⟨b1, _ | ⟨b2, _ | ⟨b3, t⟩⟩⟩
  all_goals
    simp only [decodeRune, List.length_cons, List.length_nil]
    repeat' split
    all_goals (simp only []; omega)

theorem decode_append : ∀ (n : Nat) (a v : GoString), a.length ≤ n → StartsClean v →
    decode (a ++ v) = decode a ++ decode v := by
  intro n
  induction n with
  | zero =>
    intro a v ha _
    have : a = [] := List.length_eq_zero.mp (by omega)
    subst this
    rfl
  | succ n ih =>
    intro a v ha hv
    cases a with
    | nil => rfl
    | cons b t =>
      have h1 := decodeRune_width b t
      have h2 := decodeRune_width_le b t
      have h3 := decodeRune_append (b :: t) v (List.cons_ne_nil _ _) hv
      rw [List.cons_append, decode_cons, decode_cons b t]
      rw [← List.cons_append, h3, List.drop_append_of_le_length h2]
      rw [ih _ v (by simp only [List.length_drop, List.length_cons] at *; omega) hv]
      rfl

theorem encodeRune_ne_nil (r : Int) : encodeRune r ≠ [] := by
  unfold encodeRune
  simp only []
  repeat' split
  all_goals exact List.cons_ne_nil _ _

theorem decode_encodeRune_append (r : Int) (t : GoString) :
    decode (encodeRune r ++ t) = (sanitize r, (encodeRune r).length) :: decode t := by
  have h := decodeRune_encodeRune r t
  cases he : encodeRune r ++ t with
  | nil =>
    have := encodeRune_ne_nil r
    simp only [List.append_eq_nil] at he
    exact absurd he.1 this
  | cons b u =>
    rw [decode_cons, ← he, h, List.drop_left]

theorem runes_stringOfRunes_append (rs : List Int) (t : GoString) :
    runes (stringOfRunes rs ++ t) = rs.map sanitize ++ runes t := by
  induction rs with
  | nil => rfl
  | cons r rs ih =>
    unfold runes at ih ⊢
    simp only [stringOfRunes, List.append_assoc, decode_encodeRune_append, List.map_cons,
      List.cons_append, ih]

theorem runes_stringOfRunes (rs : List Int) : runes (stringOfRunes rs) = rs.map sanitize := by
  have := runes_stringOfRunes_append rs []
  simpa [runes, decode_nil] using this

theorem runes_valid (s : GoString) : ∀ r ∈ runes s, ValidRune r := by
  suffices h : ∀ (n : Nat) (s : GoString), s.length ≤ n → ∀ r ∈ runes s, ValidRune r from
    h s.length s (le_refl _)
  intro n
  induction n with
  | zero =>
    intro s hs r hr
    have : s = [] := List.length_eq_zero.mp (by omega)
    subst this
    simp [runes, decode_nil] at hr
  | succ n ih =>
    intro s hs r hr
    cases s with
    | nil => simp [runes, decode_nil] at hr
    | cons b t =>
      have h1 := decodeRune_width b t
      simp only [runes, decode_cons, List.map_cons, List.mem_cons] at hr
      rcases hr with hr | hr
      · rw [hr]; exact decodeRune_valid _
      · exact ih _ (by simp only [List.length_drop, List.length_cons] at *; omega) r hr

theorem sanitize_of_valid (r : Int) (h : ValidRune r) : sanitize r = r := by
  simp only [sanitize, h, if_true]

theorem map_sanitize_of_valid (rs : List Int) (h : ∀ r ∈ rs, ValidRune r) :
    rs.map sanitize = rs := by
  induction rs with
  | nil => rfl
  | cons r rs ih =>
    simp only [List.map_cons, sanitize_of_valid r (h r (List.mem_cons_self _ _)),
      ih (fun x hx => h x (List.mem_cons_of_mem _ hx))]

theorem runes_ne_nil (s : GoString) (h : s ≠ []) : runes s ≠ [] := by
  cases s with
  | nil => exact absurd rfl h
  | cons b t => simp [runes, decode_cons]

/-! ## Lemmas on the helpers -/

theorem stringOfRunes_ne_nil (r : Int) (rs : List Int) : stringOfRunes (r :: rs) ≠ [] := by
  simp only [stringOfRunes, ne_eq, List.append_eq_nil, not_and]
  intro h
  exact absurd h (encodeRune_ne_nil r)

theorem runes_cons_of_ne_nil (s : GoString) (h : s ≠ []) :
    ∃ r0 rs, runes s = r0 :: rs ∧ ValidRune r0 ∧ ∀ r ∈ rs, ValidRune r := by
  have hv := runes_valid s
  cases hr : runes s with
  | nil => exact absurd hr (runes_ne_nil s h)
  | cons r0 rs =>
    rw [hr] at hv
    exact ⟨r0, rs, rfl, hv r0 (List.mem_cons_self _ _), fun r h => hv r (List.mem_cons_of_mem _ h)⟩

theorem asciiTable_lower_valid : ∀ r, ValidRune r → ValidRune (unicodeToLower asciiTable r) := by
  intro r hr
  unfold ValidRune at *
  unfold unicodeToLower asciiTable
  simp only []
  split_ifs <;> omega

theorem asciiTable_lower_idem : ∀ r, ValidRune r →
    unicodeToLower asciiTable (unicodeToLower asciiTable r) = unicodeToLower asciiTable r := by
  intro r _
  unfold unicodeToLower asciiTable
  simp only []
  split_ifs <;> omega

theorem splitByte_ne_nil (sep : Byte) (s : GoString) : splitByte sep s ≠ [] := by
  induction s with
  | nil => simp [splitByte]
  | cons b t ih =>
    simp only [splitByte]
    split_ifs
    · exact List.cons_ne_nil _ _
    · split
      · exact List.cons_ne_nil _ _
      · exact List.cons_ne_nil _ _

/-- Joining the pieces of `strings.Split` with the separator gives the string back. -/
theorem stringsJoin_splitByte (sep : Byte) (s : GoString) :
    stringsJoin (splitByte sep s) [sep] = s := by
  induction s with
  | nil => rfl
  | cons b t ih =>
    simp only [splitByte]
    split_ifs with hb
    · cases h : splitByte sep t with
      | nil => exact absurd h (splitByte_ne_nil _ _)
      | cons p ps =>
        rw [h] at ih
        simp only [stringsJoin, List.nil_append, List.singleton_append, ih, hb]
    · cases h : splitByte sep t with
      | nil => exact absurd h (splitByte_ne_nil _ _)
      | cons p ps =>
        rw [h] at ih
        cases ps with
        | nil =>
          simp only [stringsJoin] at ih ⊢
          rw [ih]
        | cons q rest =>
          simp only [stringsJoin, List.cons_append] at ih ⊢
          rw [ih]

theorem splitByte_length (sep : Byte) (s : GoString) :
    (splitByte sep s).length = s.count sep + 1 := by
  induction s with
  | nil => rfl
  | cons b t ih =>
    simp only [splitByte]
    split_ifs with hb
    · subst hb
      simp only [List.length_cons, ih, List.count_cons_self]
    · cases h : splitByte sep t with
      | nil => exact absurd h (splitByte_ne_nil _ _)
      | cons p ps =>
        rw [h] at ih
        simp only [List.length_cons] at ih ⊢
        rw [List.count_cons_of_ne (Ne.symm hb)]
        exact ih

theorem splitByte_no_sep (sep : Byte) (s : GoString) : ∀ p ∈ splitByte sep s, sep ∉ p := by
  induction s with
  | nil => simp [splitByte]
  | cons b t ih =>
    simp only [splitByte]
    split_ifs with hb
    · intro p hp
      rcases List.mem_cons.mp hp with hp | hp
      · subst hp; simp
      · exact ih p hp
    · cases h : splitByte sep t with
      | nil => exact absurd h (splitByte_ne_nil _ _)
      | cons q qs =>
        rw [h] at ih
        intro p hp
        rcases List.mem_cons.mp hp with hp | hp
        · subst hp
          intro hmem
          rcases List.mem_cons.mp hmem with hm | hm
          · exact hb hm.symm
          · exact ih q (List.mem_cons_self _ _) hm
        · exact ih p (List.mem_cons_of_mem _ hp)

theorem set_append_length {α : Type} (pre : List α) (x y : α) (l : List α) :
    (pre ++ x :: l).set pre.length y = pre ++ y :: l := by
  induction pre with
  | nil => rfl
  | cons a pre ih => simp only [List.cons_append, List.length_cons, List.set_cons_succ, ih]

theorem getD_append_length {α : Type} (pre : List α) (x d : α) (l : List α) :
    (pre ++ x :: l).getD pre.length d = x := by
  induction pre with
  | nil => rfl
  | cons a pre ih => simpa only [List.cons_append, List.length_cons, List.getD_cons_succ] using ih

/-- A loop that rewrites the elements at the indices `k, k+1, ...` one by one
is a map over the part of the list that starts at index `k`. -/
theorem foldl_set_indexRange {α : Type} (f : α → α) (P : α → Prop)
    (step : List α → Nat → List α)
    (hstep : ∀ (pre : List α) (x : α) (l : List α), P x →
      step (pre ++ x :: l) pre.length = pre ++ f x :: l) :
    ∀ (l pre : List α), (∀ x ∈ l, P x) →
      (indexRange pre.length l.length).foldl step (pre ++ l) = pre ++ l.map f := by
  intro l
  induction l with
  | nil => intro pre _; rfl
  | cons x l ih =>
    intro pre hP
    simp only [List.length_cons, indexRange, List.foldl_cons,
      hstep pre x l (hP x (List.mem_cons_self _ _)), List.map_cons]
    have := ih (pre ++ [f x]) (fun y hy => hP y (List.mem_cons_of_mem _ hy))
    simp only [List.length_append, List.length_singleton, List.append_assoc, List.singleton_append]
      at this
    exact this

theorem stringsJoin_nil_sep (l : List GoString) : stringsJoin l [] = concatAll l := by
  induction l with
  | nil => rfl
  | cons p ps ih =>
    cases ps with
    | nil => simp [stringsJoin, concatAll]
    | cons q rest => simp only [stringsJoin, concatAll, List.append_nil, ih]

theorem upperFirstSegment_nil (tbl : CaseTable) : upperFirstSegment tbl [] = [] := rfl

theorem upperFirstSegment_eq (tbl : CaseTable) (p : GoString) :
    upperFirstSegment tbl p = stringOfRunes (mapFirst (unicodeToUpper tbl) (runes p)) := by
  unfold upperFirstSegment
  cases runes p <;> rfl

theorem lowerCamelStep_eq (tbl : CaseTable) (pre : List GoString) (x : GoString)
    (l : List GoString) :
    lowerCamelStep tbl (pre ++ x :: l) pre.length = pre ++ upperFirstSegment tbl x :: l := by
  unfold lowerCamelStep
  rw [getD_append_length]
  split
  · rw [set_append_length, upperFirstSegment_eq]
  · have : x = [] := List.length_eq_zero.mp (by omega)
    subst this
    rfl

/-- The loop of `lowerCamel` computes the specification. -/
theorem lowerCamel_eq_lowerCamelSpec (tbl : CaseTable) (s : GoString) :
    lowerCamel tbl s = lowerCamelSpec tbl s := by
  unfold lowerCamel lowerCamelSpec
  cases h : splitByte 0x5F s with
  | nil => exact absurd h (splitByte_ne_nil _ _)
  | cons first rest =>
    have := foldl_set_indexRange (upperFirstSegment tbl) (fun _ => True) (lowerCamelStep tbl)
      (fun pre x l _ => lowerCamelStep_eq tbl pre x l) rest [first] (fun _ _ => trivial)
    simp only [List.length_singleton, List.singleton_append] at this
    simp only [List.length_cons, Nat.add_sub_cancel, this, stringsJoin_nil_sep, concatAll]

theorem decode_ascii_cons (b : Byte) (t : GoString) (h : b.val < 0x80) :
    decode (b :: t) = ((b.val : Int), 1) :: decode t := by
  rw [decode_cons, decodeRune_one b t h]
  rfl

theorem runes_ascii_cons (b : Byte) (t : GoString) (h : b.val < 0x80) :
    runes (b :: t) = (b.val : Int) :: runes t := by
  simp only [runes, decode_ascii_cons b t h, List.map_cons]

theorem startsClean_ascii_cons (b : Byte) (t : GoString) (h : b.val < 0x80) :
    StartsClean (b :: t) := by
  simp only [StartsClean, isCont, Bool.and_eq_false_iff, decide_eq_false_iff_not]
  omega

theorem runes_append (a v : GoString) (hv : StartsClean v) :
    runes (a ++ v) = runes a ++ runes v := by
  simp only [runes, decode_append a.length a v (le_refl _) hv, List.map_append]

/-- The code points of a string are those of its `_`-separated pieces with a
`_` between two pieces. -/
theorem runes_append_underscore (p t : GoString) :
    runes (p ++ (0x5F : Byte) :: t) = runes p ++ (0x5F : Int) :: runes t := by
  rw [runes_append p _ (startsClean_ascii_cons _ _ (by decide)),
    runes_ascii_cons _ _ (by decide)]
  rfl

theorem encodeRune_startsClean (r : Int) (t : GoString) : StartsClean (encodeRune r ++ t) := by
  unfold encodeRune
  simp only []
  repeat' split
  all_goals
    simp only [List.cons_append, StartsClean, isCont, byte_val, Bool.and_eq_false_iff,
      decide_eq_false_iff_not]
    omega

theorem stringOfRunes_startsClean (rs : List Int) : StartsClean (stringOfRunes rs) := by
  cases rs with
  | nil => trivial
  | cons r rs => exact encodeRune_startsClean r _

theorem stringOfRunes_append (xs ys : List Int) :
    stringOfRunes (xs ++ ys) = stringOfRunes xs ++ stringOfRunes ys := by
  induction xs with
  | nil => rfl
  | cons x xs ih =>
    rw [List.cons_append, stringOfRunes, stringOfRunes, ih, List.append_assoc]

theorem length_mapFirst (f : Int → Int) (l : List Int) : (mapFirst f l).length = l.length := by
  cases l <;> rfl

/-- The later segments of `lowerCamel`, concatenated, are the encoding of one
rune list with as many runes as the segments have. -/
theorem concatAll_upperFirst (tbl : CaseTable) (rest : List GoString) :
    ∃ ys : List Int, concatAll (rest.map (upperFirstSegment tbl)) = stringOfRunes ys ∧
      ys.length = (rest.map fun p => (runes p).length).sum := by
  induction rest with
  | nil => exact ⟨[], rfl, rfl⟩
  | cons p rest ih =>
    obtain ⟨ys, h1, h2⟩ := ih
    refine ⟨mapFirst (unicodeToUpper tbl) (runes p) ++ ys, ?_, ?_⟩
    · simp only [List.map_cons, concatAll, h1, upperFirstSegment_eq, stringOfRunes_append]
    · simp only [List.length_append, length_mapFirst, h2, List.map_cons, List.sum_cons]

theorem runes_join_underscore (p : GoString) (rest : List GoString) :
    (runes (stringsJoin (p :: rest) [0x5F])).length
      = (runes p).length + (rest.map fun q => (runes q).length).sum + rest.length := by
  induction rest generalizing p with
  | nil => simp [stringsJoin]
  | cons q rest ih =>
    simp only [stringsJoin, List.append_assoc, List.singleton_append, runes_append_underscore,
      List.length_append, List.length_cons, ih q, List.map_cons, List.sum_cons]
    omega

theorem decode_width_pos (s : GoString) : ∀ d ∈ decode s, 1 ≤ d.2 := by
  suffices h : ∀ (n : Nat) (s : GoString), s.length ≤ n → ∀ d ∈ decode s, 1 ≤ d.2 from
    h s.length s (le_refl _)
  intro n
  induction n with
  | zero =>
    intro s hs d hd
    have : s = [] := List.length_eq_zero.mp (by omega)
    subst this
    simp [decode_nil] at hd
  | succ n ih =>
    intro s hs d hd
    cases s with
    | nil => simp [decode_nil] at hd
    | cons b t =>
      have h1 := decodeRune_width b t
      rw [decode_cons] at hd
      rcases List.mem_cons.mp hd with hd | hd
      · rw [hd]; exact h1
      · exact ih _ (by simp only [List.length_drop, List.length_cons] at *; omega) d hd

theorem toSnakeCaseStep_later (tbl : CaseTable) (acc : List Int) (i : Nat) (r : Int)
    (hi : 0 < i) :
    toSnakeCaseStep tbl acc (i, r)
      = acc ++ (if unicodeIsUpper tbl r then [0x5F, unicodeToLower tbl r]
                else [unicodeToLower tbl r]) := by
  unfold toSnakeCaseStep
  simp only [hi, decide_True, Bool.and_true]
  split <;> simp

/-- After the first rune every index is positive, so the loop emits `_` before
exactly the upper-case runes. -/
theorem foldl_toSnakeCaseStep (tbl : CaseTable) (ds : List (Int × Nat))
    (hw : ∀ d ∈ ds, 1 ≤ d.2) :
    ∀ (i : Nat) (acc : List Int), 0 < i →
      (withOffsets i ds).foldl (toSnakeCaseStep tbl) acc
        = acc ++ snakeTail tbl (ds.map Prod.fst) := by
  induction ds with
  | nil => intro i acc _; simp [withOffsets, snakeTail]
  | cons d ds ih =>
    intro i acc hi
    obtain ⟨r, w⟩ := d
    have hw1 : 1 ≤ w := hw (r, w) (List.mem_cons_self _ _)
    simp only [withOffsets, List.foldl_cons, toSnakeCaseStep_later tbl acc i r hi, List.map_cons,
      snakeTail]
    rw [ih (fun d hd => hw d (List.mem_cons_of_mem _ hd)) (i + w) _ (by omega),
      List.append_assoc]

/-- The loop of `toSnakeCase` computes the specification. -/
theorem toSnakeCase_eq_toSnakeCaseSpec (tbl : CaseTable) (s : GoString) :
    toSnakeCase tbl s = toSnakeCaseSpec tbl s := by
  unfold toSnakeCase toSnakeCaseSpec rangeString runes
  have hw := decode_width_pos s
  cases h : decode s with
  | nil => rfl
  | cons d ds =>
    obtain ⟨r, w⟩ := d
    rw [h] at hw
    have hw1 : 1 ≤ w := hw (r, w) (List.mem_cons_self _ _)
    simp only [withOffsets, List.foldl_cons, List.map_cons]
    rw [foldl_toSnakeCaseStep tbl ds (fun d hd => hw d (List.mem_cons_of_mem _ hd)) (0 + w) _
      (by omega)]
    have h0 : toSnakeCaseStep tbl [] (0, r) = [unicodeToLower tbl r] := by
      simp [toSnakeCaseStep]
    rw [h0]
    rfl

theorem byte_val_self (b : Byte) : byte b.val = b := by
  apply Fin.ext
  simp only [byte_val]
  omega

theorem stringsToUpper_ascii_byte (tbl : CaseTable) (b : Byte) (h : b.val < 0x80) :
    stringsToUpper tbl [b] = encodeRune (unicodeToUpper tbl (b.val : Int)) := by
  have hall : ([b] : GoString).all (fun b => decide (b.val < 0x80)) = true := by
    simp only [List.all_cons, List.all_nil, Bool.and_true, decide_eq_true_eq]
    exact h
  rw [stringsToUpper, if_pos hall, unicodeToUpper, if_pos (by omega)]
  simp only [List.map_cons, List.map_nil]
  by_cases hl : 0x61 ≤ b.val ∧ b.val ≤ 0x7A
  · rw [if_pos hl, if_pos (by omega)]
    have : ((b.val : Int) - 32) = ((b.val - 32 : Nat) : Int) := by omega
    rw [this, encodeRune_one _ (by omega)]
  · rw [if_neg hl, if_neg (by omega), encodeRune_one _ (by omega), byte_val_self]

theorem swiftTypePrefixStep_eq (tbl : CaseTable) (pre : List GoString) (x : GoString)
    (l : List GoString) (hx : AsciiLed x) :
    swiftTypePrefixStep tbl (pre ++ x :: l) pre.length = pre ++ upperFirstKeepRest tbl x :: l := by
  unfold swiftTypePrefixStep
  simp only [getD_append_length]
  cases x with
  | nil => rfl
  | cons b t =>
    simp only [AsciiLed] at hx
    rw [if_pos (by simp), set_append_length, upperFirstKeepRest, if_neg (List.cons_ne_nil _ _),
      decodeRune_one b t hx]
    simp only [List.take_succ_cons, List.take_zero, List.drop_succ_cons, List.drop_zero,
      stringsToUpper_ascii_byte tbl b hx]

theorem decodeRune_eq_underscore (b : Byte) (t : GoString)
    (h : (decodeRune (b :: t)).1 = 0x5F) : b = 0x5F := by
  apply Fin.ext
  revert h
  simp only [decodeRune, RuneError]
  repeat' split
  all_goals
    simp only []
    intro h
    have : b.val = 95 := by omega
    simpa using this

theorem underscore_not_mem_runes : ∀ (n : Nat) (p : GoString), p.length ≤ n →
    (0x5F : Byte) ∉ p → (0x5F : Int) ∉ runes p := by
  intro n
  induction n with
  | zero =>
    intro p hp _
    have : p = [] := List.length_eq_zero.mp (by omega)
    subst this
    simp [runes, decode_nil]
  | succ n ih =>
    intro p hp hmem
    cases p with
    | nil => simp [runes, decode_nil]
    | cons b t =>
      have h1 := decodeRune_width b t
      simp only [runes, decode_cons, List.map_cons, List.mem_cons, not_or]
      constructor
      · intro h
        exact hmem (by rw [decodeRune_eq_underscore b t h.symm]; exact List.mem_cons_self _ _)
      · exact ih _ (by simp only [List.length_drop, List.length_cons] at *; omega)
          (fun h => hmem (List.mem_of_mem_drop h))

theorem count_runes_join_underscore (p : GoString) (rest : List GoString)
    (h : ∀ q ∈ p :: rest, (0x5F : Byte) ∉ q) :
    (runes (stringsJoin (p :: rest) [0x5F])).count 0x5F = rest.length := by
  induction rest generalizing p with
  | nil =>
    simp only [stringsJoin, List.length_nil]
    exact List.count_eq_zero.mpr
      (underscore_not_mem_runes _ p (le_refl _) (h p (List.mem_cons_self _ _)))
  | cons q rest ih =>
    simp only [stringsJoin, List.append_assoc, List.singleton_append, runes_append_underscore,
      List.count_append, List.count_cons_self, List.length_cons]
    rw [ih q (fun x hx => h x (List.mem_cons_of_mem _ hx)),
      List.count_eq_zero.mpr
        (underscore_not_mem_runes _ p (le_refl _) (h p (List.mem_cons_self _ _)))]
    omega

/-- The character `_` occurs in a string as often as the byte `0x5F`. -/
theorem count_runes_underscore (s : GoString) : (runes s).count 0x5F = s.count 0x5F := by
  have hj := stringsJoin_splitByte 0x5F s
  have hl := splitByte_length 0x5F s
  have hn := splitByte_no_sep 0x5F s
  cases h : splitByte 0x5F s with
  | nil => exact absurd h (splitByte_ne_nil _ _)
  | cons first rest =>
    rw [h] at hj hl hn
    have := count_runes_join_underscore first rest hn
    rw [hj] at this
    simp only [List.length_cons] at hl
    omega

theorem runes_ascii (s : GoString) (h : IsAscii s) :
    runes s = s.map fun b => (b.val : Int) := by
  induction s with
  | nil => rfl
  | cons b t ih =>
    rw [runes_ascii_cons b t (h b (List.mem_cons_self _ _)),
      ih (fun x hx => h x (List.mem_cons_of_mem _ hx)), List.map_cons]

theorem stringOfRunes_ascii (rs : List Int) (h : ∀ r ∈ rs, 0 ≤ r ∧ r ≤ 0x7F) :
    IsAscii (stringOfRunes rs) ∧ (stringOfRunes rs).length = rs.length := by
  induction rs with
  | nil => exact ⟨fun b hb => by simp [stringOfRunes] at hb, rfl⟩
  | cons r rs ih =>
    obtain ⟨h1, h2⟩ := ih (fun x hx => h x (List.mem_cons_of_mem _ hx))
    have hr := h r (List.mem_cons_self _ _)
    obtain ⟨n, rfl⟩ := Int.eq_ofNat_of_zero_le hr.1
    rw [stringOfRunes, encodeRune_one n (by omega)]
    constructor
    · intro b hb
      rcases List.mem_cons.mp hb with hb | hb
      · rw [hb, byte_val]; omega
      · exact h1 b hb
    · simp only [List.singleton_append, List.length_cons, h2]

theorem upperFirstSegment_ascii (tbl : CaseTable) (p : GoString) (h : IsAscii p) :
    IsAscii (upperFirstSegment tbl p) ∧ (upperFirstSegment tbl p).length = p.length := by
  have key : ∀ r ∈ mapFirst (unicodeToUpper tbl) (runes p), 0 ≤ r ∧ r ≤ 0x7F := by
    rw [runes_ascii p h]
    cases p with
    | nil => intro r hr; simp [mapFirst] at hr
    | cons b t =>
      intro r hr
      simp only [List.map_cons, mapFirst, List.mem_cons, List.mem_map] at hr
      rcases hr with hr | ⟨x, hx, hr⟩
      · have hb := h b (List.mem_cons_self _ _)
        rw [hr, unicodeToUpper, if_pos (by omega)]
        split <;> omega
      · have hb := h x (List.mem_cons_of_mem _ hx)
        omega
  obtain ⟨h1, h2⟩ := stringOfRunes_ascii _ key
  rw [upperFirstSegment_eq]
  refine ⟨h1, ?_⟩
  rw [h2, length_mapFirst, runes_ascii p h, List.length_map]

theorem mem_of_mem_splitByte (sep : Byte) (s : GoString) :
    ∀ p ∈ splitByte sep s, ∀ b ∈ p, b ∈ s := by
  induction s with
  | nil => simp [splitByte]
  | cons c t ih =>
    simp only [splitByte]
    split_ifs with hc
    · intro p hp b hb
      rcases List.mem_cons.mp hp with hp | hp
      · subst hp; simp at hb
      · exact List.mem_cons_of_mem _ (ih p hp b hb)
    · cases h : splitByte sep t with
      | nil => exact absurd h (splitByte_ne_nil _ _)
      | cons q qs =>
        rw [h] at ih
        intro p hp b hb
        rcases List.mem_cons.mp hp with hp | hp
        · subst hp
          rcases List.mem_cons.mp hb with hb | hb
          · rw [hb]; exact List.mem_cons_self _ _
          · exact List.mem_cons_of_mem _ (ih q (List.mem_cons_self _ _) b hb)
        · exact List.mem_cons_of_mem _ (ih p (List.mem_cons_of_mem _ hp) b hb)

theorem concatAll_upperFirst_ascii (tbl : CaseTable) (rest : List GoString)
    (h : ∀ p ∈ rest, IsAscii p) :
    IsAscii (concatAll (rest.map (upperFirstSegment tbl))) := by
  induction rest with
  | nil => intro b hb; simp [concatAll] at hb
  | cons p rest ih =>
    intro b hb
    simp only [List.map_cons, concatAll, List.mem_append] at hb
    rcases hb with hb | hb
    · exact (upperFirstSegment_ascii tbl p (h p (List.mem_cons_self _ _))).1 b hb
    · exact ih (fun q hq => h q (List.mem_cons_of_mem _ hq)) b hb

theorem lowerCamel_ascii (tbl : CaseTable) (s : GoString) (h : IsAscii s) :
    IsAscii (lowerCamel tbl s) := by
  rw [lowerCamel_eq_lowerCamelSpec]
  have hm := mem_of_mem_splitByte 0x5F s
  unfold lowerCamelSpec
  cases hs : splitByte 0x5F s with
  | nil => exact absurd hs (splitByte_ne_nil _ _)
  | cons first rest =>
    rw [hs] at hm
    intro b hb
    simp only [List.mem_append] at hb
    rcases hb with hb | hb
    · exact h b (hm first (List.mem_cons_self _ _) b hb)
    · exact concatAll_upperFirst_ascii tbl rest
        (fun p hp c hc => h c (hm p (List.mem_cons_of_mem _ hp) c hc)) b hb

theorem runes_length_ascii (s : GoString) (h : IsAscii s) : (runes s).length = s.length := by
  rw [runes_ascii s h, List.length_map]

/-- The code points of `lowerCamel s` are as many as those of `s` without
its `_` bytes. -/
theorem runes_lowerCamel_length (tbl : CaseTable) (s : GoString) :
    (runes (lowerCamel tbl s)).length + s.count 0x5F = (runes s).length := by
  rw [lowerCamel_eq_lowerCamelSpec]
  have hj := stringsJoin_splitByte 0x5F s
  have hl := splitByte_length 0x5F s
  unfold lowerCamelSpec
  cases h : splitByte 0x5F s with
  | nil => exact absurd h (splitByte_ne_nil _ _)
  | cons first rest =>
    rw [h] at hj hl
    obtain ⟨ys, h1, h2⟩ := concatAll_upperFirst tbl rest
    simp only []
    rw [h1, runes_append _ _ (stringOfRunes_startsClean ys), runes_stringOfRunes]
    have h3 := runes_join_underscore first rest
    rw [hj] at h3
    simp only [List.length_cons] at hl
    simp only [List.length_append, List.length_map, h2, h3]
    omega

/-- The loop of `swiftTypePrefix` computes the specification when every
segment is empty or starts with an ASCII byte. -/
theorem swiftTypePrefix_eq_spec_of_asciiLed (tbl : CaseTable) (pkg : GoString)
    (h : ∀ p ∈ splitByte 0x2E pkg, AsciiLed p) :
    swiftTypePrefix tbl pkg = swiftTypePrefixSpec tbl pkg := by
  unfold swiftTypePrefix swiftTypePrefixSpec
  split
  · rfl
  · have := foldl_set_indexRange (upperFirstKeepRest tbl) AsciiLed (swiftTypePrefixStep tbl)
      (swiftTypePrefixStep_eq tbl) (splitByte 0x2E pkg) [] h
    simp only [List.length_nil, List.nil_append] at this
    simp only [this]

/-- The switch of `kotlinScalarType` is the type table. -/
theorem kotlinScalarType_eq_table (fd : ProtoField) (lang : GoString) :
    kotlinScalarType fd lang = kotlinTypeTable fd := by
  unfold kotlinScalarType kotlinTypeTable
  cases hk : fd.kind <;> simp

/-- On well-formed UTF-8 the two ways of upper-casing the first code point of a
segment agree: re-encoding the code points leaves the bytes after the first
code point as they were. -/
theorem upperFirstSegment_eq_keepRest (tbl : CaseTable) (p : GoString)
    (h : stringOfRunes (runes p) = p) : upperFirstSegment tbl p = upperFirstKeepRest tbl p := by
  unfold upperFirstSegment upperFirstKeepRest
  have hv := runes_valid p
  cases hr : runes p with
  | nil =>
    rw [hr] at h
    rw [← h]
    rfl
  | cons r0 rs =>
    rw [hr] at h hv
    have hne : p ≠ [] := by rw [← h]; exact stringOfRunes_ne_nil _ _
    have hd : decodeRune p = (r0, (encodeRune r0).length) := by
      conv_lhs => rw [← h, stringOfRunes, decodeRune_encodeRune,
        sanitize_of_valid r0 (hv r0 (List.mem_cons_self _ _))]
    rw [if_neg hne, hd]
    simp only [stringOfRunes]
    congr 1
    conv_rhs => rw [← h, stringOfRunes, List.drop_left]

/-- The code points of `lowerFirst s` for a non-empty `s` whose lowered first
rune is a scalar value. -/
theorem runes_lowerFirst_of_valid (tbl : CaseTable) (s : GoString) (r0 : Int) (rs : List Int)
    (h : runes s = r0 :: rs) (hvalid : ValidRune (unicodeToLower tbl r0)) :
    runes (lowerFirst tbl s) = unicodeToLower tbl r0 :: rs := by
  have hne : s ≠ [] := by
    intro h0
    subst h0
    simp [runes, decode_nil] at h
  have hv := runes_valid s
  rw [h] at hv
  rw [lowerFirst, if_neg hne, h, mapFirst, runes_stringOfRunes]
  apply map_sanitize_of_valid
  intro r hr
  rcases List.mem_cons.mp hr with hr | hr
  · rw [hr]; exact hvalid
  · exact hv r (List.mem_cons_of_mem _ hr)

/-- The first rune of a string that starts with an ASCII byte is that byte. -/
theorem runes_head_of_asciiLed (s : GoString) (r0 : Int) (rs : List Int)
    (h : runes s = r0 :: rs) (ha : AsciiLed s) : 0 ≤ r0 ∧ r0 ≤ 0x7F := by
  cases s with
  | nil => simp [runes, decode_nil] at h
  | cons b t =>
    simp only [AsciiLed] at ha
    rw [runes_ascii_cons b t ha] at h
    have := (List.cons.inj h).1
    omega

/-- On an ASCII rune `unicode.ToLower` takes the fast path: the result is a
scalar value and a fixed point. -/
theorem unicodeToLower_ascii (tbl : CaseTable) (r : Int) (h : 0 ≤ r ∧ r ≤ 0x7F) :
    ValidRune (unicodeToLower tbl r) ∧
      unicodeToLower tbl (unicodeToLower tbl r) = unicodeToLower tbl r := by
  have h1 : unicodeToLower tbl r = if 0x41 ≤ r ∧ r ≤ 0x5A then r + 32 else r := by
    rw [unicodeToLower, if_pos h.2]
  by_cases hc : 0x41 ≤ r ∧ r ≤ 0x5A
  · rw [if_pos hc] at h1
    rw [h1, unicodeToLower, if_pos (by omega), if_neg (by omega)]
    exact ⟨by unfold ValidRune; omega, rfl⟩
  · rw [if_neg hc] at h1
    rw [h1, h1]
    exact ⟨by unfold ValidRune; omega, rfl⟩

/-! ## Lemmas on the IR builder -/

/-- A loop that appends one element per item is a map. -/
theorem foldl_append_singleton {α β : Type} (g : α → β) (xs : List α) (pre : List β) :
    xs.foldl (fun acc x => acc ++ [g x]) pre = pre ++ xs.map g := by
  induction xs generalizing pre with
  | nil => simp
  | cons x xs ih => simp only [List.foldl_cons, ih, List.map_cons, List.append_assoc,
      List.singleton_append]

/-- A loop that appends one element per item and may panic: it ends without a
panic exactly when no item panics, and then it has appended the results in
order. -/
theorem foldl_append_option {α β : Type} (g : α → Option β) (xs : List α) :
    ∀ (pre out : List β),
      xs.foldl (fun acc x => acc.bind fun l => (g x).map fun y => l ++ [y]) (some pre) = some out
        ↔ ∃ ys, out = pre ++ ys ∧ xs.map g = ys.map some := by
  induction xs with
  | nil =>
    intro pre out
    simp only [List.foldl_nil, Option.some.injEq, List.map_nil]
    constructor
    · intro h; exact ⟨[], by simp [h], rfl⟩
    · rintro ⟨ys, h1, h2⟩
      have : ys = [] := by
        cases ys with
        | nil => rfl
        | cons y ys => simp at h2
      subst this
      simp [h1]
  | cons x xs ih =>
    intro pre out
    simp only [List.foldl_cons, Option.some_bind, List.map_cons]
    cases hg : g x with
    | none =>
      have hnone : ∀ l : List α, l.foldl
          (fun acc x => acc.bind fun l => (g x).map fun y => l ++ [y]) (none : Option (List β))
            = none := by
        intro l
        induction l with
        | nil => rfl
        | cons a l ihl => simpa using ihl
      simp only [Option.map_none', hnone]
      constructor
      · intro h; cases h
      · rintro ⟨ys, _, h2⟩
        cases ys with
        | nil => simp at h2
        | cons y ys => simp at h2
    | some y =>
      simp only [Option.map_some', ih]
      constructor
      · rintro ⟨ys, h1, h2⟩
        exact ⟨y :: ys, by simp [h1], by simp [h2]⟩
      · rintro ⟨ys, h1, h2⟩
        cases ys with
        | nil => simp at h2
        | cons z zs =>
          simp only [List.map_cons, List.cons.injEq, Option.some.injEq] at h2
          exact ⟨zs, by simp [h1, h2.1], h2.2⟩

theorem buildEnum_eq (e : ProtoEnum) :
    buildEnum e = ⟨e.name, e.values.map fun v => ⟨v.name, v.number⟩⟩ := by
  simp only [buildEnum, foldl_append_singleton, List.nil_append]

theorem buildMethods_eq (tbl : CaseTable) (typePrefix : GoString) (svc : ProtoService) :
    buildMethods tbl typePrefix svc = svc.methods.map fun m =>
      ⟨m.name, lowerFirst tbl m.name, typePrefix ++ m.input.name, typePrefix ++ m.output.name,
        m.isStreamingServer⟩ := by
  simp only [buildMethods, foldl_append_singleton, List.nil_append]

theorem buildServices_eq (tbl : CaseTable) (typePrefix : GoString) (f : ProtoFile)
    (data : FileData) :
    buildServices tbl typePrefix f data =
      { data with services := data.services ++ f.services.map fun svc =>
          ⟨svc.name, svc.name ++ str "/", buildMethods tbl typePrefix svc⟩ } := by
  unfold buildServices
  generalize f.services = svcs
  induction svcs generalizing data with
  | nil => simp
  | cons svc svcs ih => simp only [List.foldl_cons, ih, List.map_cons, List.append_assoc,
      List.singleton_append]

theorem foldl_enums_eq (es : List ProtoEnum) (data : FileData) :
    es.foldl (fun data e => { data with enums := data.enums ++ [buildEnum e] }) data
      = { data with enums := data.enums ++ es.map buildEnum } := by
  induction es generalizing data with
  | nil => simp
  | cons e es ih => simp only [List.foldl_cons, ih, List.map_cons, List.append_assoc,
      List.singleton_append]

/-- The loop over the messages of `buildFileData`. -/
theorem foldl_messages_eq (tbl : CaseTable) (lang : GoString) (ms : List ProtoMessage) :
    ∀ (data out : FileData),
      ms.foldl (fun data m => data.bind fun d => (buildMessage tbl m lang).map fun msg =>
          { d with messages := d.messages ++ [msg] }) (some data) = some out
        ↔ ∃ ys, out = { data with messages := data.messages ++ ys } ∧
            ms.map (fun m => buildMessage tbl m lang) = ys.map some := by
  induction ms with
  | nil =>
    intro data out
    simp only [List.foldl_nil, Option.some.injEq, List.map_nil]
    constructor
    · intro h; exact ⟨[], by simp [h], rfl⟩
    · rintro ⟨ys, h1, h2⟩
      have : ys = [] := by
        cases ys with
        | nil => rfl
        | cons y ys => simp at h2
      subst this
      simp [h1]
  | cons m ms ih =>
    intro data out
    simp only [List.foldl_cons, Option.some_bind, List.map_cons]
    cases hg : buildMessage tbl m lang with
    | none =>
      have hnone : ∀ l : List ProtoMessage, l.foldl
          (fun data m => data.bind fun d => (buildMessage tbl m lang).map fun msg =>
            { d with messages := d.messages ++ [msg] }) (none : Option FileData) = none := by
        intro l
        induction l with
        | nil => rfl
        | cons a l ihl => simpa using ihl
      simp only [Option.map_none', hnone]
      constructor
      · intro h; cases h
      · rintro ⟨ys, _, h2⟩
        cases ys with
        | nil => simp at h2
        | cons y ys => simp at h2
    | some y =>
      simp only [Option.map_some', ih]
      constructor
      · rintro ⟨ys, h1, h2⟩
        exact ⟨y :: ys, by simp [h1], by simp [h2]⟩
      · rintro ⟨ys, h1, h2⟩
        cases ys with
        | nil => simp at h2
        | cons z zs =>
          simp only [List.map_cons, List.cons.injEq, Option.some.injEq] at h2
          exact ⟨zs, by simp [h1, h2.1], h2.2⟩

theorem trimSuffix_append (base suffix : GoString) : trimSuffix (base ++ suffix) suffix = base := by
  have h : hasSuffix (base ++ suffix) suffix = true := by
    simp [hasSuffix]
  rw [trimSuffix, if_pos h]
  simp

/-- The type prefix that `buildFileData` puts before the input and output
types. -/
theorem typePrefix_eq (tbl : CaseTable) (f : ProtoFile) (lang : GoString) :
    (if lang = str "swift" then
        swiftTypePrefix tbl
          (if lang = str "kotlin" ∧ f.package = str "" then str "generated" else f.package)
      else str "")
      = if lang = str "swift" then swiftTypePrefix tbl f.package else [] := by
  by_cases h : lang = str "swift"
  · have hk : ¬ (lang = str "kotlin" ∧ f.package = str "") := by
      rw [h]
      intro h2
      exact absurd h2.1 (by decide)
    rw [if_pos h, if_pos h, if_neg hk]
  · rw [if_neg h, if_neg h]
    rfl

/-- The result of `BuildFileData` of `gen.go`, field by field. -/
theorem BuildFileData_eq (tbl : CaseTable) (f : ProtoFile) (lang : GoString) :
    BuildFileData tbl f lang =
      { fileName := f.path
        protoName := trimSuffix f.path (str ".proto")
        packageName :=
          if lang = str "kotlin" ∧ f.package = str "" then str "generated" else f.package
        enums := []
        messages := []
        services := f.services.map fun svc =>
          ⟨svc.name, svc.name ++ str "/", svc.methods.map fun m =>
            ⟨m.name, lowerFirst tbl m.name,
              (if lang = str "swift" then swiftTypePrefix tbl f.package else []) ++ m.input.name,
              (if lang = str "swift" then swiftTypePrefix tbl f.package else []) ++ m.output.name,
              m.isStreamingServer⟩⟩ } := by
  simp only [BuildFileData, buildServices_eq, buildMethods_eq, typePrefix_eq, List.nil_append]

/-- The result of `buildFileData` of `protoc-gen-kalam`: that of `BuildFileData`
of `gen.go` with, for `kotlin`, the enums and the messages of the file. -/
theorem buildFileData_eq_some_iff (tbl : CaseTable) (f : ProtoFile) (lang : GoString)
    (out : FileData) :
    buildFileData tbl f lang = some out ↔
      ∃ msgs : List Message,
        (if lang = str "kotlin" then
            f.messages.map (fun m => buildMessage tbl m lang) = msgs.map some
          else msgs = []) ∧
        out = { BuildFileData tbl f lang with
                enums := if lang = str "kotlin" then f.enums.map buildEnum else []
                messages := msgs } := by
  unfold buildFileData
  simp only []
  by_cases hk : lang = str "kotlin"
  · simp only [if_pos hk, foldl_enums_eq, List.nil_append, Option.map_eq_some']
    constructor
    · rintro ⟨d, hd, rfl⟩
      obtain ⟨ys, h1, h2⟩ := (foldl_messages_eq tbl _ f.messages _ d).mp hd
      refine ⟨ys, h2, ?_⟩
      subst h1
      simp only [BuildFileData, buildServices_eq, List.nil_append]
    · rintro ⟨msgs, h1, rfl⟩
      refine ⟨_, (foldl_messages_eq tbl _ f.messages _ _).mpr ⟨msgs, rfl, h1⟩, ?_⟩
      simp only [BuildFileData, buildServices_eq, List.nil_append]
  · simp only [if_neg hk, Option.map_some', Option.some.injEq]
    constructor
    · intro h
      exact ⟨[], rfl, by rw [← h]; simp only [BuildFileData, buildServices_eq]⟩
    · rintro ⟨msgs, rfl, rfl⟩
      simp only [BuildFileData, buildServices_eq]

/-- What `buildFileData` returns has the file name, the proto name, the
package name and the services of `BuildFileData` of `gen.go`. -/
theorem buildFileData_some (tbl : CaseTable) (f : ProtoFile) (lang : GoString)
    (out : FileData) (h : buildFileData tbl f lang = some out) :
    out.fileName = (BuildFileData tbl f lang).fileName ∧
    out.protoName = (BuildFileData tbl f lang).protoName ∧
    out.packageName = (BuildFileData tbl f lang).packageName ∧
    out.services = (BuildFileData tbl f lang).services := by
  obtain ⟨msgs, _, rfl⟩ := (buildFileData_eq_some_iff tbl f lang out).mp h
  exact ⟨rfl, rfl, rfl, rfl⟩

/-- The field that the loop of `buildMessage` appends for `fd`, `none` on a
panic. -/
theorem buildMessage_eq_some_iff (tbl : CaseTable) (m : ProtoMessage) (lang : GoString)
    (msg : Message) :
    buildMessage tbl m lang = some msg ↔
      msg.name = m.name ∧
      m.fields.map (fun fd => (kotlinType fd lang).bind fun t => (kotlinDefault fd).map fun d =>
          (⟨lowerCamel tbl fd.name, t, fd.number, d⟩ : Field)) = msg.fields.map some := by
  unfold buildMessage
  have hstep : (fun (fields : Option (List Field)) (fd : ProtoField) =>
        fields.bind fun fs => (kotlinType fd lang).bind fun t => (kotlinDefault fd).map fun d =>
          fs ++ [(⟨lowerCamel tbl fd.name, t, fd.number, d⟩ : Field)])
      = fun acc fd => acc.bind fun l =>
          ((kotlinType fd lang).bind fun t => (kotlinDefault fd).map fun d =>
            (⟨lowerCamel tbl fd.name, t, fd.number, d⟩ : Field)).map fun y => l ++ [y] := by
    funext acc fd
    cases acc with
    | none => rfl
    | some l =>
      cases kotlinType fd lang with
      | none => rfl
      | some t =>
        cases kotlinDefault fd with
        | none => rfl
        | some d => rfl
  rw [hstep]
  simp only [Option.map_eq_some']
  constructor
  · rintro ⟨fields, hf, rfl⟩
    obtain ⟨ys, h1, h2⟩ := (foldl_append_option _ m.fields [] fields).mp hf
    simp only [List.nil_append] at h1
    subst h1
    exact ⟨rfl, h2⟩
  · rintro ⟨h1, h2⟩
    refine ⟨msg.fields, (foldl_append_option _ m.fields [] msg.fields).mpr ⟨msg.fields, rfl, h2⟩,
      ?_⟩
    cases msg
    simp only at h1
    subst h1
    rfl

theorem map_eq_map_some_of_forall {α β : Type} (g : α → Option β) (xs : List α)
    (h : ∀ x ∈ xs, ∃ y, g x = some y) : ∃ ys : List β, xs.map g = ys.map some := by
  induction xs with
  | nil => exact ⟨[], rfl⟩
  | cons x xs ih =>
    obtain ⟨y, hy⟩ := h x (List.mem_cons_self _ _)
    obtain ⟨ys, hys⟩ := ih (fun z hz => h z (List.mem_cons_of_mem _ hz))
    exact ⟨y :: ys, by simp only [List.map_cons, hy, hys]⟩

/-- On a field as `protogen` builds it neither `kotlinType` nor
`kotlinDefault` panics. -/
theorem kotlinType_kotlinDefault_some (fd : ProtoField) (lang : GoString)
    (h : WellFormedField fd) :
    (∃ t, kotlinType fd lang = some t) ∧ ∃ d, kotlinDefault fd = some d := by
  obtain ⟨he, hm⟩ := h
  have hs : ∃ t, kotlinScalarType fd lang = some t := by
    unfold kotlinScalarType
    cases hk : fd.kind <;> simp only [Option.some.injEq, exists_eq', Option.map_eq_some']
    · obtain ⟨e, hh⟩ := Option.isSome_iff_exists.mp (he hk)
      exact ⟨_, e, hh, rfl⟩
    · obtain ⟨e, hh⟩ := Option.isSome_iff_exists.mp (hm (Or.inl hk))
      exact ⟨_, e, hh, rfl⟩
    · obtain ⟨e, hh⟩ := Option.isSome_iff_exists.mp (hm (Or.inr hk))
      exact ⟨_, e, hh, rfl⟩
  constructor
  · obtain ⟨t, ht⟩ := hs
    unfold kotlinType
    split
    · exact ⟨_, by rw [ht]; rfl⟩
    · exact ⟨t, ht⟩
  · unfold kotlinDefault
    split
    · exact ⟨_, rfl⟩
    · cases hk : fd.kind <;> simp only [Option.some.injEq, exists_eq', Option.map_eq_some']
      · obtain ⟨e, hh⟩ := Option.isSome_iff_exists.mp (he hk)
        rw [hh, Option.some_bind]
        split
        · cases hv : e.values with
          | nil => simp [hv] at *
          | cons v vs => exact ⟨_, rfl⟩
        · exact ⟨_, rfl⟩
      · obtain ⟨e, hh⟩ := Option.isSome_iff_exists.mp (hm (Or.inl hk))
        exact ⟨_, e, hh, rfl⟩
      · obtain ⟨e, hh⟩ := Option.isSome_iff_exists.mp (hm (Or.inr hk))
        exact ⟨_, e, hh, rfl⟩

/-- On a file as `protogen` builds it, and for every language but `kotlin` on
any file, `buildFileData` does not panic. -/
theorem buildFileData_total (tbl : CaseTable) (f : ProtoFile) (lang : GoString)
    (h : WellFormedFile f ∨ lang ≠ str "kotlin") : ∃ data, buildFileData tbl f lang = some data := by
  by_cases hk : lang = str "kotlin"
  · have hw : WellFormedFile f := by
      rcases h with h | h
      · exact h
      · exact absurd hk h
    have hm : ∀ m ∈ f.messages, ∃ msg, buildMessage tbl m lang = some msg := by
      intro m hmem
      have hf : ∀ fd ∈ m.fields, ∃ y, ((kotlinType fd lang).bind fun t =>
          (kotlinDefault fd).map fun d => (⟨lowerCamel tbl fd.name, t, fd.number, d⟩ : Field))
            = some y := by
        intro fd hfd
        obtain ⟨⟨t, ht⟩, ⟨d, hd⟩⟩ := kotlinType_kotlinDefault_some fd lang (hw m hmem fd hfd)
        exact ⟨_, by rw [ht, hd]; rfl⟩
      obtain ⟨ys, hys⟩ := map_eq_map_some_of_forall _ m.fields hf
      exact ⟨⟨m.name, ys⟩, (buildMessage_eq_some_iff tbl m lang _).mpr ⟨rfl, hys⟩⟩
    obtain ⟨msgs, hmsgs⟩ := map_eq_map_some_of_forall _ f.messages hm
    exact ⟨_, (buildFileData_eq_some_iff tbl f lang _).mpr ⟨msgs, by rw [if_pos hk]; exact hmsgs, rfl⟩⟩
  · exact ⟨_, (buildFileData_eq_some_iff tbl f lang _).mpr ⟨[], by rw [if_neg hk], rfl⟩⟩

theorem servicesAsDeclared_BuildFileData (tbl : CaseTable) (f : ProtoFile) (lang : GoString) :
    ServicesAsDeclared tbl f (BuildFileData tbl f lang) := by
  rw [BuildFileData_eq]
  simp only [ServicesAsDeclared, List.map_map, Function.comp_def, and_self]

theorem typeRefsAsSpecified_BuildFileData (tbl : CaseTable) (f : ProtoFile) (lang : GoString) :
    TypeRefsAsSpecified tbl f lang (BuildFileData tbl f lang) := by
  rw [BuildFileData_eq]
  by_cases h : lang = str "swift"
  · simp only [TypeRefsAsSpecified, if_pos h, List.map_map, Function.comp_def]
  · simp only [TypeRefsAsSpecified, if_neg h, List.nil_append, List.map_map, Function.comp_def]

theorem packageNameAsSpecified_ite (f : ProtoFile) (lang : GoString) :
    PackageNameAsSpecified f lang
      (if lang = str "kotlin" ∧ f.package = str "" then str "generated" else f.package) := by
  unfold PackageNameAsSpecified
  by_cases h : lang = str "kotlin" ∧ f.package = str ""
  · rw [if_pos h]
    exact ⟨⟨fun _ => Or.inl h, fun _ => rfl⟩, fun hn => absurd (Or.inl h) hn⟩
  · rw [if_neg h]
    exact ⟨⟨fun e => Or.inr e, fun e => e.elim (fun c => absurd c h) id⟩, fun _ => rfl⟩

/-- The fields that `buildMessage` built, read against the declared fields. -/
theorem fields_as_declared (tbl : CaseTable) (lang : GoString) (fds : List ProtoField) :
    ∀ (xs : List Field),
      fds.map (fun fd => (kotlinType fd lang).bind fun t => (kotlinDefault fd).map fun d =>
          (⟨lowerCamel tbl fd.name, t, fd.number, d⟩ : Field)) = xs.map some →
      xs.map (fun x => (x.name, x.protoNumber, some x.kotlinType, some x.defaultValue))
        = fds.map fun fd => (lowerCamel tbl fd.name, fd.number, kotlinType fd lang,
            kotlinDefault fd) := by
  induction fds with
  | nil =>
    intro xs h
    cases xs with
    | nil => rfl
    | cons x xs => simp at h
  | cons fd fds ih =>
    intro xs h
    cases xs with
    | nil => simp at h
    | cons x xs =>
      simp only [List.map_cons, List.cons.injEq] at h ⊢
      refine ⟨?_, ih xs h.2⟩
      have h1 := h.1
      cases ht : kotlinType fd lang with
      | none => simp [ht] at h1
      | some t =>
        cases hd : kotlinDefault fd with
        | none => simp [ht, hd] at h1
        | some d =>
          simp only [ht, hd, Option.some_bind, Option.map_some', Option.some.injEq] at h1
          rw [← h1]

/-- The messages that `buildFileData` built, read against the declared
messages. -/
theorem messages_as_declared (tbl : CaseTable) (lang : GoString) (ms : List ProtoMessage) :
    ∀ (msgs : List Message),
      ms.map (fun m => buildMessage tbl m lang) = msgs.map some →
      msgs.map (fun m => m.name) = ms.map (fun m => m.name) ∧
      msgs.map (fun m => m.fields.map fun x =>
          (x.name, x.protoNumber, some x.kotlinType, some x.defaultValue))
        = ms.map (fun m => m.fields.map fun fd =>
            (lowerCamel tbl fd.name, fd.number, kotlinType fd lang, kotlinDefault fd)) := by
  induction ms with
  | nil =>
    intro msgs h
    cases msgs with
    | nil => exact ⟨rfl, rfl⟩
    | cons x xs => simp at h
  | cons m ms ih =>
    intro msgs h
    cases msgs with
    | nil => simp at h
    | cons msg msgs =>
      simp only [List.map_cons, List.cons.injEq] at h ⊢
      obtain ⟨h1, h2⟩ := ih msgs h.2
      obtain ⟨hn, hf⟩ := (buildMessage_eq_some_iff tbl m lang msg).mp h.1
      exact ⟨⟨hn, h1⟩, ⟨fields_as_declared tbl lang m.fields msg.fields hf, h2⟩⟩

/-! ## Lemmas on the driver -/

/-- The loop of `protoc-gen-kalam` sees only the files whose flag is set. -/
theorem kalamLoop_filter (tbl : CaseTable) (tmpl : Template) (lang : GoString)
    (files : List ProtoFile) :
    ∀ gen, kalamLoop tbl tmpl lang files gen
      = kalamLoop tbl tmpl lang (files.filter fun f => f.generate) gen := by
  induction files with
  | nil => intro gen; rfl
  | cons f files ih =>
    intro gen
    cases hg : f.generate with
    | false =>
      rw [List.filter_cons_of_neg (by simp [hg]), kalamLoop]
      simp only [hg, Bool.not_false, if_true]
      exact ih gen
    | true =>
      rw [List.filter_cons_of_pos (by simp [hg]), kalamLoop, kalamLoop]
      simp only [hg, Bool.not_true, Bool.false_eq_true, if_false]
      cases buildFileData tbl f lang with
      | none => rfl
      | some data =>
        simp only [Option.some_bind]
        split
        · exact ih _
        · rfl

/-- The loop of `protoc-gen-klm` sees only the files whose flag is set. -/
theorem klmLoop_filter (tbl : CaseTable) (tmpl : Template) (lang : GoString)
    (files : List ProtoFile) :
    ∀ gen, klmLoop tbl tmpl lang files gen
      = klmLoop tbl tmpl lang (files.filter fun f => f.generate) gen := by
  induction files with
  | nil => intro gen; rfl
  | cons f files ih =>
    intro gen
    cases hg : f.generate with
    | false =>
      rw [List.filter_cons_of_neg (by simp [hg]), klmLoop]
      simp only [hg, Bool.not_false, if_true]
      exact ih gen
    | true =>
      rw [List.filter_cons_of_pos (by simp [hg]), klmLoop, klmLoop]
      simp only [hg, Bool.not_true, Bool.false_eq_true, if_false]
      split
      · exact ih _
      · rfl

/-- When every flagged file is built and rendered without failure, the loop
of `protoc-gen-kalam` appends one generated file per flagged file, in order. -/
theorem kalamLoop_ok (tbl : CaseTable) (tmpl : Template) (lang : GoString)
    (files : List ProtoFile) :
    ∀ gen,
      (∀ f ∈ files, f.generate = true →
        ∃ d, buildFileData tbl f lang = some d ∧ (tmpl.execute d).2 = true) →
      ∃ stubs : List GeneratedFile,
        kalamLoop tbl tmpl lang files gen = some ⟨gen ++ stubs, false⟩ ∧
        stubs.map (fun g => (g.name, some g.content))
          = (files.filter fun f => f.generate).map fun f =>
              (kalamFileName lang f.path,
                (buildFileData tbl f lang).map fun d => (tmpl.execute d).1) := by
  induction files with
  | nil => intro gen _; exact ⟨[], by simp [kalamLoop], rfl⟩
  | cons f files ih =>
    intro gen h
    have hrest : ∀ g ∈ files, g.generate = true →
        ∃ d, buildFileData tbl g lang = some d ∧ (tmpl.execute d).2 = true :=
      fun g hg => h g (List.mem_cons_of_mem _ hg)
    cases hg : f.generate with
    | false =>
      obtain ⟨stubs, h1, h2⟩ := ih gen hrest
      refine ⟨stubs, ?_, ?_⟩
      · rw [kalamLoop]
        simp only [hg, Bool.not_false, if_true]
        exact h1
      · rw [List.filter_cons_of_neg (by simp [hg])]
        exact h2
    | true =>
      obtain ⟨d, hd, hok⟩ := h f (List.mem_cons_self _ _) hg
      obtain ⟨stubs, h1, h2⟩ := ih (gen ++ [⟨kalamFileName lang f.path, (tmpl.execute d).1⟩]) hrest
      refine ⟨⟨kalamFileName lang f.path, (tmpl.execute d).1⟩ :: stubs, ?_, ?_⟩
      · rw [kalamLoop]
        simp only [hg, Bool.not_true, Bool.false_eq_true, if_false, hd, Option.some_bind, hok,
          if_true]
        rw [h1]
        simp only [List.append_assoc, List.singleton_append]
      · rw [List.filter_cons_of_pos (by simp [hg])]
        simp only [List.map_cons, h2, hd, Option.map_some']

/-- When every flagged file is rendered without failure, the loop of
`protoc-gen-klm` appends one generated file per flagged file, in order. -/
theorem klmLoop_ok (tbl : CaseTable) (tmpl : Template) (lang : GoString)
    (files : List ProtoFile) :
    ∀ gen,
      (∀ f ∈ files, f.generate = true → (tmpl.execute (BuildFileData tbl f lang)).2 = true) →
      klmLoop tbl tmpl lang files gen
        = ⟨gen ++ (files.filter fun f => f.generate).map fun f =>
              ⟨klmFileName lang f.path, (tmpl.execute (BuildFileData tbl f lang)).1⟩, false⟩ := by
  induction files with
  | nil => intro gen _; simp [klmLoop]
  | cons f files ih =>
    intro gen h
    have hrest : ∀ g ∈ files, g.generate = true →
        (tmpl.execute (BuildFileData tbl g lang)).2 = true :=
      fun g hg => h g (List.mem_cons_of_mem _ hg)
    cases hg : f.generate with
    | false =>
      rw [klmLoop, List.filter_cons_of_neg (by simp [hg])]
      simp only [hg, Bool.not_false, if_true]
      exact ih gen hrest
    | true =>
      have hok := h f (List.mem_cons_self _ _) hg
      rw [klmLoop, List.filter_cons_of_pos (by simp [hg])]
      simp only [hg, Bool.not_true, Bool.false_eq_true, if_false, hok, if_true]
      rw [ih _ hrest]
      simp only [List.append_assoc, List.singleton_append, List.map_cons]

/-- When rendering fails on a flagged file, the loop of `protoc-gen-kalam`
ends in a panic or with an error. -/
theorem kalamLoop_fail (tbl : CaseTable) (tmpl : Template) (lang : GoString)
    (files : List ProtoFile) :
    ∀ gen,
      (∃ f ∈ files, f.generate = true ∧
        ∃ d, buildFileData tbl f lang = some d ∧ (tmpl.execute d).2 = false) →
      (kalamLoop tbl tmpl lang files gen = none ∧
          ∃ g ∈ files, g.generate = true ∧ buildFileData tbl g lang = none) ∨
        ∃ out, kalamLoop tbl tmpl lang files gen = some ⟨out, true⟩ := by
  induction files with
  | nil => intro gen h; obtain ⟨f, hf, _⟩ := h; simp at hf
  | cons f files ih =>
    intro gen h
    cases hg : f.generate with
    | false =>
      rw [kalamLoop]
      simp only [hg, Bool.not_false, if_true]
      obtain ⟨x, hx, hxg, hxd⟩ := h
      rcases List.mem_cons.mp hx with hx | hx
      · subst hx; rw [hg] at hxg; cases hxg
      · rcases ih gen ⟨x, hx, hxg, hxd⟩ with ⟨h1, g, hg1, hg2⟩ | h2
        · exact Or.inl ⟨h1, g, List.mem_cons_of_mem _ hg1, hg2⟩
        · exact Or.inr h2
    | true =>
      rw [kalamLoop]
      simp only [hg, Bool.not_true, Bool.false_eq_true, if_false]
      cases hb : buildFileData tbl f lang with
      | none => exact Or.inl ⟨rfl, f, List.mem_cons_self _ _, hg, hb⟩
      | some data =>
        simp only [Option.some_bind]
        cases hok : (tmpl.execute data).2 with
        | false =>
          simp only [Bool.false_eq_true, if_false]
          exact Or.inr ⟨_, rfl⟩
        | true =>
          simp only [if_true]
          obtain ⟨x, hx, hxg, d, hxd, hxe⟩ := h
          rcases List.mem_cons.mp hx with hx | hx
          · subst hx
            rw [hb] at hxd
            cases hxd
            rw [hok] at hxe
            cases hxe
          · rcases ih _ ⟨x, hx, hxg, d, hxd, hxe⟩ with ⟨h1, g, hg1, hg2⟩ | h2
            · exact Or.inl ⟨h1, g, List.mem_cons_of_mem _ hg1, hg2⟩
            · exact Or.inr h2

/-- When rendering fails on a flagged file, the loop of `protoc-gen-klm` ends
with an error. -/
theorem klmLoop_fail (tbl : CaseTable) (tmpl : Template) (lang : GoString)
    (files : List ProtoFile) :
    ∀ gen,
      (∃ f ∈ files, f.generate = true ∧ (tmpl.execute (BuildFileData tbl f lang)).2 = false) →
      ∃ out, klmLoop tbl tmpl lang files gen = ⟨out, true⟩ := by
  induction files with
  | nil => intro gen h; obtain ⟨f, hf, _⟩ := h; simp at hf
  | cons f files ih =>
    intro gen h
    cases hg : f.generate with
    | false =>
      rw [klmLoop]
      simp only [hg, Bool.not_false, if_true]
      obtain ⟨x, hx, hxg, hxd⟩ := h
      rcases List.mem_cons.mp hx with hx | hx
      · subst hx; rw [hg] at hxg; cases hxg
      · exact ih gen ⟨x, hx, hxg, hxd⟩
    | true =>
      rw [klmLoop]
      simp only [hg, Bool.not_true, Bool.false_eq_true, if_false]
      cases hok : (tmpl.execute (BuildFileData tbl f lang)).2 with
      | false =>
        simp only [Bool.false_eq_true, if_false]
        exact ⟨_, rfl⟩
      | true =>
        simp only [if_true]
        obtain ⟨x, hx, hxg, hxe⟩ := h
        rcases List.mem_cons.mp hx with hx | hx
        · subst hx
          rw [hok] at hxe
          cases hxe
        · exact ih _ ⟨x, hx, hxg, hxe⟩

theorem option_map_eq_some_iff_exists {α : Type} (o : Option α) (p : α → Bool) (b : Bool) :
    o.map p = some b ↔ ∃ d, o = some d ∧ p d = b := by
  cases o <;> simp

/-- The callback of `protoc-gen-kalam` depends on the files through the loop
only. -/
theorem kalamRun_filter (tbl : CaseTable) (assets : Assets) (lang : GoString)
    (files : List ProtoFile) :
    kalamRun tbl assets lang files
      = kalamRun tbl assets lang (files.filter fun f => f.generate) := by
  unfold kalamRun kalamCallback
  cases assets.parseTemplate (str "templates/" ++ lang ++ str ".tmpl") with
  | none => rfl
  | some tmpl => simp only [kalamLoop_filter tbl tmpl lang files []]

theorem klmRun_filter (tbl : CaseTable) (assets : Assets) (lang : GoString)
    (files : List ProtoFile) :
    klmRun tbl assets lang files = klmRun tbl assets lang (files.filter fun f => f.generate) := by
  unfold klmRun klmCallback
  cases assets.parseTemplate (str "templates/" ++ lang ++ str ".tmpl") with
  | none => rfl
  | some tmpl => simp only [klmLoop_filter tbl tmpl lang files []]

theorem hasSuffix_append (a b c : GoString) (h : c.length ≤ b.length) :
    hasSuffix (a ++ b) c = hasSuffix b c := by
  have e : (a ++ b).length - c.length = a.length + (b.length - c.length) := by
    rw [List.length_append]; omega
  have h1 : c.length ≤ (a ++ b).length := by rw [List.length_append]; omega
  simp only [hasSuffix, e, List.drop_append, h, h1, decide_True, Bool.true_and]

theorem kalamFileName_not_go (lang path : GoString) :
    hasSuffix (kalamFileName lang path) (str ".go") = false := by
  unfold kalamFileName kalamExt
  split_ifs <;> rw [hasSuffix_append _ _ _ (by decide)] <;> rfl

theorem klmFileName_not_go (lang path : GoString)
    (h : lang = str "kotlin" ∨ lang = str "swift" ∨ lang = str "dart") :
    hasSuffix (klmFileName lang path) (str ".go") = false := by
  unfold klmFileName
  rcases h with h | h | h <;> subst h <;> rw [hasSuffix_append _ _ _ (by decide)] <;> rfl

theorem responseLoop_of_no_go (assets : Assets) (gs acc : List GeneratedFile)
    (h : ∀ g ∈ gs, hasSuffix g.name (str ".go") = false) :
    responseLoop assets gs acc = { error := false, files := acc ++ gs } := by
  induction gs generalizing acc with
  | nil => simp [responseLoop]
  | cons g rest ih =>
    have hg := h g (List.mem_cons_self _ _)
    rw [responseLoop, generatedContent, hg]
    simp only [Bool.false_eq_true, if_false]
    rw [ih _ (fun x hx => h x (List.mem_cons_of_mem _ hx)), List.append_assoc]
    rfl

/-- When no generated file is named `*.go`, the response carries the generated
files as the callback left them. -/
theorem pluginResponse_of_no_go (assets : Assets) (r : CallbackResult)
    (h : ∀ g ∈ r.genFiles, hasSuffix g.name (str ".go") = false) :
    pluginResponse assets r
      = if r.failed then { error := true, files := [] }
        else { error := false, files := r.genFiles } := by
  unfold pluginResponse
  split
  · rfl
  · rw [responseLoop_of_no_go assets _ _ h, List.nil_append]

theorem klmLoop_not_go (tbl : CaseTable) (tmpl : Template) (lang : GoString)
    (hl : lang = str "kotlin" ∨ lang = str "swift" ∨ lang = str "dart")
    (files : List ProtoFile) (gen : List GeneratedFile)
    (h : ∀ g ∈ gen, hasSuffix g.name (str ".go") = false) :
    ∀ g ∈ (klmLoop tbl tmpl lang files gen).genFiles, hasSuffix g.name (str ".go") = false := by
  induction files generalizing gen with
  | nil => simpa [klmLoop] using h
  | cons f rest ih =>
    have h2 : ∀ g ∈ gen ++ [⟨klmFileName lang f.path,
        (tmpl.execute (BuildFileData tbl f lang)).1⟩], hasSuffix g.name (str ".go") = false := by
      intro g hg
      rcases List.mem_append.mp hg with hg | hg
      · exact h g hg
      · rw [List.mem_singleton.mp hg]
        exact klmFileName_not_go lang f.path hl
    rw [klmLoop]
    split
    · exact ih gen h
    · simp only []
      split
      · exact ih _ h2
      · exact h2

theorem kalamLoop_not_go (tbl : CaseTable) (tmpl : Template) (lang : GoString)
    (files : List ProtoFile) (gen : List GeneratedFile)
    (h : ∀ g ∈ gen, hasSuffix g.name (str ".go") = false) (r : CallbackResult)
    (hr : kalamLoop tbl tmpl lang files gen = some r) :
    ∀ g ∈ r.genFiles, hasSuffix g.name (str ".go") = false := by
  induction files generalizing gen with
  | nil =>
    simp only [kalamLoop, Option.some.injEq] at hr
    subst hr
    exact h
  | cons f rest ih =>
    rw [kalamLoop] at hr
    split at hr
    · exact ih gen h hr
    · cases hd : buildFileData tbl f lang with
      | none => rw [hd] at hr; cases hr
      | some data =>
        have h2 : ∀ g ∈ gen ++ [⟨kalamFileName lang f.path, (tmpl.execute data).1⟩],
            hasSuffix g.name (str ".go") = false := by
          intro g hg
          rcases List.mem_append.mp hg with hg | hg
          · exact h g hg
          · rw [List.mem_singleton.mp hg]
            exact kalamFileName_not_go lang f.path
        rw [hd] at hr
        simp only [Option.some_bind] at hr
        split at hr
        · exact ih _ h2 hr
        · simp only [Option.some.injEq] at hr
          subst hr
          exact h2

/-- The run of `protoc-gen-kalam` never registers a file named `*.go`: its
response carries the generated files as the callback left them. -/
theorem kalamRun_eq (tbl : CaseTable) (assets : Assets) (lang : GoString)
    (files : List ProtoFile) :
    kalamRun tbl assets lang files
      = (kalamCallback tbl assets lang files).map fun r =>
          if r.failed then { error := true, files := [] }
          else { error := false, files := r.genFiles } := by
  unfold kalamRun
  cases hc : kalamCallback tbl assets lang files with
  | none => rfl
  | some r =>
    simp only [Option.map_some', Option.some.injEq]
    apply pluginResponse_of_no_go
    unfold kalamCallback at hc
    split at hc
    · simp only [Option.some.injEq] at hc
      subst hc
      simp
    · rename_i tmpl _
      cases hl : kalamLoop tbl tmpl lang files [] with
      | none => rw [hl] at hc; cases hc
      | some r0 =>
        have h0 := kalamLoop_not_go tbl tmpl lang files [] (by simp) r0 hl
        rw [hl] at hc
        simp only [Option.some_bind] at hc
        split at hc
        · simp only [Option.some.injEq] at hc
          subst hc
          exact h0
        · split at hc
          · split at hc
            · simp only [Option.some.injEq] at hc
              subst hc
              exact h0
            · simp only [Option.some.injEq] at hc
              subst hc
              intro g hg
              rcases List.mem_append.mp hg with hg | hg
              · exact h0 g hg
              · rw [List.mem_singleton.mp hg]
                simp only [kalamRuntime]
                split_ifs <;> rfl
          · simp only [Option.some.injEq] at hc
            subst hc
            exact h0

/-- The run of `protoc-gen-klm` for one of its three languages never registers
a file named `*.go`: its response carries the generated files as the callback
left them. -/
theorem klmRun_eq (tbl : CaseTable) (assets : Assets) (lang : GoString)
    (files : List ProtoFile)
    (hl : lang = str "kotlin" ∨ lang = str "swift" ∨ lang = str "dart") :
    klmRun tbl assets lang files
      = if (klmCallback tbl assets lang files).failed then { error := true, files := [] }
        else { error := false, files := (klmCallback tbl assets lang files).genFiles } := by
  unfold klmRun
  apply pluginResponse_of_no_go
  unfold klmCallback
  split
  · simp
  · exact klmLoop_not_go tbl _ lang hl files [] (by simp)

/-- A run of `protoc-gen-klm` for a language outside the map of extensions, on
the schema file `x.go.proto`: the generated file is named `x.go`, its text is
not Go source, and the response carries the error and no file. -/
theorem klmRun_go_name :
    klmCallback asciiTable sampleAssets (str "rust") [chatFile (str "x.go.proto") true]
      = ⟨[⟨str "x.go", str "x.go"⟩], false⟩ ∧
    klmRun asciiTable sampleAssets (str "rust") [chatFile (str "x.go.proto") true]
      = ⟨true, []⟩ := by
  decide

/-! ## Lemmas on well-formed field names -/

theorem splitByte_of_not_mem (sep : Byte) (p : GoString) (h : sep ∉ p) :
    splitByte sep p = [p] := by
  induction p with
  | nil => rfl
  | cons b t ih =>
    have hb : b ≠ sep := fun e => h (by rw [e]; exact List.mem_cons_self _ _)
    have ht : sep ∉ t := fun e => h (List.mem_cons_of_mem _ e)
    rw [splitByte, if_neg hb, ih ht]

theorem splitByte_append_sep (sep : Byte) (p rest : GoString) (h : sep ∉ p) :
    splitByte sep (p ++ sep :: rest) = p :: splitByte sep rest := by
  induction p with
  | nil => simp [splitByte]
  | cons b t ih =>
    have hb : b ≠ sep := fun e => h (by rw [e]; exact List.mem_cons_self _ _)
    have ht : sep ∉ t := fun e => h (List.mem_cons_of_mem _ e)
    rw [List.cons_append, splitByte, if_neg hb, ih ht]

/-- Splitting a joined list of pieces that do not contain the separator gives
the pieces back. -/
theorem splitByte_stringsJoin (sep : Byte) (p : GoString) (rest : List GoString)
    (h : ∀ q ∈ p :: rest, sep ∉ q) :
    splitByte sep (stringsJoin (p :: rest) [sep]) = p :: rest := by
  induction rest generalizing p with
  | nil => exact splitByte_of_not_mem sep p (h p (List.mem_cons_self _ _))
  | cons q rest ih =>
    simp only [stringsJoin, List.append_assoc, List.singleton_append]
    rw [splitByte_append_sep sep p _ (h p (List.mem_cons_self _ _)),
      ih q (fun x hx => h x (List.mem_cons_of_mem _ hx))]

theorem stringsJoin_cons_underscore (p : GoString) (rest : List GoString) :
    stringsJoin (p :: rest) [0x5F] = p ++ concatAll (rest.map fun q => (0x5F : Byte) :: q) := by
  induction rest generalizing p with
  | nil => simp [stringsJoin, concatAll]
  | cons q rest ih =>
    simp only [stringsJoin, List.append_assoc, List.singleton_append, ih q, List.map_cons,
      concatAll, List.cons_append, List.nil_append]

theorem stringOfRunes_map_val (bs : GoString) (h : IsAscii bs) :
    stringOfRunes (bs.map fun b => (b.val : Int)) = bs := by
  induction bs with
  | nil => rfl
  | cons b t ih =>
    have hb := h b (List.mem_cons_self _ _)
    rw [List.map_cons, stringOfRunes, encodeRune_one _ (by omega), byte_val_self,
      ih (fun x hx => h x (List.mem_cons_of_mem _ hx))]
    rfl

theorem isFieldSegment_ascii (p : GoString) (h : IsFieldSegment p) :
    IsAscii p ∧ (0x5F : Byte) ∉ p := by
  cases p with
  | nil => exact absurd h (by simp [IsFieldSegment])
  | cons c t =>
    obtain ⟨hc, ht⟩ := h
    simp only [isLowerByte, decide_eq_true_eq] at hc
    have key : ∀ b ∈ c :: t, b.val < 0x80 ∧ b.val ≠ 0x5F := by
      intro b hb
      rcases List.mem_cons.mp hb with hb | hb
      · rw [hb]; omega
      · have := ht b hb
        simp only [isLowerByte, isDigitByte, decide_eq_true_eq] at this
        omega
    exact ⟨fun b hb => (key b hb).1, fun hm => (key _ hm).2 rfl⟩

/-- The first byte of a later segment after `lowerCamel`: the upper-case
letter. -/
theorem upperFirstSegment_fieldSegment (tbl : CaseTable) (c : Byte) (t : GoString)
    (h : IsFieldSegment (c :: t)) :
    upperFirstSegment tbl (c :: t) = byte (c.val - 32) :: t := by
  have ha := (isFieldSegment_ascii _ h).1
  obtain ⟨hc, _⟩ := h
  simp only [isLowerByte, decide_eq_true_eq] at hc
  have hta : IsAscii t := fun b hb => ha b (List.mem_cons_of_mem _ hb)
  rw [upperFirstSegment_eq, runes_ascii _ ha, List.map_cons, mapFirst, stringOfRunes,
    stringOfRunes_map_val t hta, unicodeToUpper, if_pos (by omega), if_pos (by omega)]
  have : ((c.val : Int) - 32) = ((c.val - 32 : Nat) : Int) := by omega
  rw [this, encodeRune_one _ (by omega)]
  rfl

theorem snakeTail_append (tbl : CaseTable) (xs ys : List Int) :
    snakeTail tbl (xs ++ ys) = snakeTail tbl xs ++ snakeTail tbl ys := by
  induction xs with
  | nil => rfl
  | cons x xs ih => rw [List.cons_append, snakeTail, snakeTail, ih, List.append_assoc]

theorem snakeTail_plain (tbl : CaseTable) (t : GoString)
    (h : ∀ b ∈ t, isLowerByte b = true ∨ isDigitByte b = true) :
    snakeTail tbl (t.map fun b => (b.val : Int)) = t.map fun b => (b.val : Int) := by
  induction t with
  | nil => rfl
  | cons b t ih =>
    have hb := h b (List.mem_cons_self _ _)
    simp only [isLowerByte, isDigitByte, decide_eq_true_eq] at hb
    have hu : unicodeIsUpper tbl (b.val : Int) = false := by
      rw [unicodeIsUpper, if_pos (by omega)]
      simp only [decide_eq_false_iff_not]
      omega
    have hl : unicodeToLower tbl (b.val : Int) = (b.val : Int) := by
      rw [unicodeToLower, if_pos (by omega), if_neg (by omega)]
    rw [List.map_cons, snakeTail, hu, hl, ih (fun x hx => h x (List.mem_cons_of_mem _ hx))]
    rfl

/-- What `toSnakeCase` emits for a later segment after `lowerCamel`: `_` and
the segment as it was. -/
theorem snakeTail_upper_segment (tbl : CaseTable) (c : Byte) (t : GoString)
    (h : IsFieldSegment (c :: t)) :
    snakeTail tbl ((byte (c.val - 32) :: t).map fun b => (b.val : Int))
      = ((0x5F : Byte) :: c :: t).map fun b => (b.val : Int) := by
  obtain ⟨hc, ht⟩ := h
  simp only [isLowerByte, decide_eq_true_eq] at hc
  have hv : ((byte (c.val - 32)).val : Int) = (c.val : Int) - 32 := by
    rw [byte_val]; omega
  have hu : unicodeIsUpper tbl ((c.val : Int) - 32) = true := by
    rw [unicodeIsUpper, if_pos (by omega)]
    simp only [decide_eq_true_eq]
    omega
  have hl : unicodeToLower tbl ((c.val : Int) - 32) = (c.val : Int) := by
    rw [unicodeToLower, if_pos (by omega), if_pos (by omega)]
    omega
  rw [List.map_cons, snakeTail, hv, hu, hl, snakeTail_plain tbl t ht]
  rfl

theorem snakeTail_later_segments (tbl : CaseTable) (rest : List GoString)
    (h : ∀ p ∈ rest, IsFieldSegment p) :
    snakeTail tbl ((concatAll (rest.map (upperFirstSegment tbl))).map fun b => (b.val : Int))
      = (concatAll (rest.map fun q => (0x5F : Byte) :: q)).map fun b => (b.val : Int) := by
  induction rest with
  | nil => rfl
  | cons p rest ih =>
    have hp := h p (List.mem_cons_self _ _)
    cases p with
    | nil => exact absurd hp (by simp [IsFieldSegment])
    | cons c t =>
      have e := snakeTail_upper_segment tbl c t hp
      have c1 : concatAll (((c :: t) :: rest).map (upperFirstSegment tbl))
          = upperFirstSegment tbl (c :: t) ++ concatAll (rest.map (upperFirstSegment tbl)) := rfl
      have c2 : concatAll (((c :: t) :: rest).map fun q => (0x5F : Byte) :: q)
          = ((0x5F : Byte) :: c :: t) ++ concatAll (rest.map fun q => (0x5F : Byte) :: q) := rfl
      rw [c1, c2, List.map_append, snakeTail_append,
        upperFirstSegment_fieldSegment tbl c t hp, e,
        ih (fun q hq => h q (List.mem_cons_of_mem _ hq)), List.map_append]

theorem isAscii_concat_later (tbl : CaseTable) (rest : List GoString)
    (h : ∀ p ∈ rest, IsFieldSegment p) :
    IsAscii (concatAll (rest.map (upperFirstSegment tbl))) :=
  concatAll_upperFirst_ascii tbl rest (fun p hp => (isFieldSegment_ascii p (h p hp)).1)

theorem isAscii_concat_underscore (rest : List GoString) (h : ∀ p ∈ rest, IsFieldSegment p) :
    IsAscii (concatAll (rest.map fun q => (0x5F : Byte) :: q)) := by
  induction rest with
  | nil => intro x hx; simp [concatAll] at hx
  | cons q rest ih =>
    intro x hx
    simp only [List.map_cons, concatAll, List.cons_append, List.mem_cons, List.mem_append] at hx
    rcases hx with hx | hx | hx
    · rw [hx]; decide
    · exact (isFieldSegment_ascii q (h q (List.mem_cons_self _ _))).1 x hx
    · exact ih (fun y hy => h y (List.mem_cons_of_mem _ hy)) x hx

/-- On a field name made of well-formed segments joined by single `_`,
`toSnakeCase` undoes `lowerCamel`. -/
theorem snake_of_camel_segments (tbl : CaseTable) (p : GoString)
    (rest : List GoString) (h : ∀ q ∈ p :: rest, IsFieldSegment q) :
    toSnakeCase tbl (lowerCamel tbl (stringsJoin (p :: rest) [0x5F]))
      = stringsJoin (p :: rest) [0x5F] := by
  have hsplit := splitByte_stringsJoin 0x5F p rest (fun q hq => (isFieldSegment_ascii q (h q hq)).2)
  have hrest : ∀ q ∈ rest, IsFieldSegment q := fun q hq => h q (List.mem_cons_of_mem _ hq)
  have hp := h p (List.mem_cons_self _ _)
  rw [lowerCamel_eq_lowerCamelSpec, lowerCamelSpec, hsplit]
  simp only []
  rw [toSnakeCase_eq_toSnakeCaseSpec, toSnakeCaseSpec]
  cases p with
  | nil => exact absurd hp (by simp [IsFieldSegment])
  | cons c t =>
    have hpa := (isFieldSegment_ascii _ hp).1
    have hla := isAscii_concat_later tbl rest hrest
    have hall : IsAscii ((c :: t) ++ concatAll (rest.map (upperFirstSegment tbl))) := by
      intro b hb
      rcases List.mem_append.mp hb with hb | hb
      · exact hpa b hb
      · exact hla b hb
    have hout : IsAscii ((c :: t) ++ concatAll (rest.map fun q => (0x5F : Byte) :: q)) := by
      intro b hb
      rcases List.mem_append.mp hb with hb | hb
      · exact hpa b hb
      · exact isAscii_concat_underscore rest hrest b hb
    obtain ⟨hc, ht⟩ := hp
    simp only [isLowerByte, decide_eq_true_eq] at hc
    have hl : unicodeToLower tbl (c.val : Int) = (c.val : Int) := by
      rw [unicodeToLower, if_pos (by omega), if_neg (by omega)]
    have e := stringOfRunes_map_val _ hout
    rw [runes_ascii _ hall, stringsJoin_cons_underscore]
    simp only [List.cons_append, List.map_cons, List.map_append, snakeTail_append,
      snakeTail_plain tbl t ht, snakeTail_later_segments tbl rest hrest, hl] at e ⊢
    exact e

/-! ## Lemmas on the `protoc-gen-kotlinx` variant and on underscores -/

theorem kotlinx_lowerCamelStep_eq (pre : List GoString) (x : GoString) (l : List GoString) :
    Kotlinx.lowerCamelStep (pre ++ x :: l) pre.length = pre ++ shiftFirstSegment x :: l := by
  unfold Kotlinx.lowerCamelStep
  rw [getD_append_length]
  split
  · rw [set_append_length, shiftFirstSegment]
  · have : x = [] := List.length_eq_zero.mp (by omega)
    subst this
    rfl

/-- The loop of `lowerCamel` of `protoc-gen-kotlinx`, segment by segment. -/
theorem kotlinx_lowerCamel_eq (s : GoString) :
    Kotlinx.lowerCamel s =
      match splitByte 0x5F s with
      | [] => []
      | first :: rest => first ++ concatAll (rest.map shiftFirstSegment) := by
  unfold Kotlinx.lowerCamel
  cases h : splitByte 0x5F s with
  | nil => exact absurd h (splitByte_ne_nil _ _)
  | cons first rest =>
    have := foldl_set_indexRange shiftFirstSegment (fun _ => True) Kotlinx.lowerCamelStep
      (fun pre x l _ => kotlinx_lowerCamelStep_eq pre x l) rest [first] (fun _ _ => trivial)
    simp only [List.length_singleton, List.singleton_append] at this
    simp only [List.length_cons, Nat.add_sub_cancel, this, stringsJoin_nil_sep, concatAll]

/-- On a segment that starts with an ASCII lower-case letter the arithmetic of
`protoc-gen-kotlinx` is the upper-case mapping. -/
theorem shiftFirstSegment_of_lowerLed (tbl : CaseTable) (p : GoString) (h : LowerLed p) :
    shiftFirstSegment p = upperFirstSegment tbl p := by
  rw [upperFirstSegment_eq, shiftFirstSegment]
  cases p with
  | nil => rfl
  | cons b t =>
    simp only [LowerLed, isLowerByte, decide_eq_true_eq] at h
    rw [runes_ascii_cons b t (by omega), mapFirst, mapFirst, unicodeToUpper, if_pos (by omega),
      if_pos (by omega)]
    have : (0x41 : Int) + ((b.val : Int) - 0x61) = (b.val : Int) - 32 := by omega
    rw [this]

/-- Where every later segment is empty or starts with an ASCII lower-case
letter, `lowerCamel` of `protoc-gen-kotlinx` agrees with `lowerCamel` of
`protoc-gen-kalam`. -/
theorem kotlinx_lowerCamel_eq_of_lowerLed (tbl : CaseTable) (s : GoString)
    (h : ∀ p ∈ (splitByte 0x5F s).tail, LowerLed p) :
    Kotlinx.lowerCamel s = lowerCamel tbl s := by
  rw [kotlinx_lowerCamel_eq, lowerCamel_eq_lowerCamelSpec, lowerCamelSpec]
  cases hs : splitByte 0x5F s with
  | nil => rfl
  | cons first rest =>
    rw [hs] at h
    simp only [List.tail_cons] at h
    simp only []
    congr 2
    exact List.map_congr_left (fun p hp => shiftFirstSegment_of_lowerLed tbl p (h p hp))

theorem encodeRune_underscore (r : Int) : ∀ b ∈ encodeRune r, b.val = 0x5F → r = 0x5F := by
  unfold encodeRune
  simp only []
  repeat' split
  all_goals
    simp only [List.forall_mem_cons, List.not_mem_nil, false_implies, implies_true, and_true,
      byte_val]
    repeat' constructor
    all_goals
      intro hv
      omega

theorem stringOfRunes_underscore (rs : List Int) (h : (0x5F : Int) ∉ rs) :
    (0x5F : Byte) ∉ stringOfRunes rs := by
  induction rs with
  | nil => simp [stringOfRunes]
  | cons r rs ih =>
    intro hm
    rw [stringOfRunes, List.mem_append] at hm
    rcases hm with hm | hm
    · exact h (by rw [← encodeRune_underscore r _ hm rfl]; exact List.mem_cons_self _ _)
    · exact ih (fun hr => h (List.mem_cons_of_mem _ hr)) hm

theorem unicodeToUpper_ascii_ne_underscore (tbl : CaseTable) (r : Int) (h0 : 0 ≤ r)
    (h1 : r ≤ 0x7F) (h : r ≠ 0x5F) : unicodeToUpper tbl r ≠ 0x5F := by
  rw [unicodeToUpper, if_pos h1]
  split <;> omega

/-- A later segment of `lowerCamel` stays free of `_`. -/
theorem upperFirstSegment_underscore (tbl : CaseTable) (p : GoString)
    (hp : (0x5F : Byte) ∉ p)
    (h : AsciiLed p ∨ ∀ r, 0x7F < r → unicodeToUpper tbl r ≠ 0x5F) :
    (0x5F : Byte) ∉ upperFirstSegment tbl p := by
  have hr := underscore_not_mem_runes p.length p (le_refl _) hp
  have hv := runes_valid p
  unfold upperFirstSegment
  cases hrs : runes p with
  | nil => simp
  | cons r0 rs =>
    rw [hrs] at hr hv
    simp only []
    apply stringOfRunes_underscore
    intro hm
    rcases List.mem_cons.mp hm with hm | hm
    · have hv0 := hv r0 (List.mem_cons_self _ _)
      have hne : r0 ≠ 0x5F := fun e => hr (by rw [e]; exact List.mem_cons_self _ _)
      by_cases hle : r0 ≤ 0x7F
      · exact unicodeToUpper_ascii_ne_underscore tbl r0 (by unfold ValidRune at hv0; omega) hle hne
          hm.symm
      · rcases h with ha | ht
        · have := runes_head_of_asciiLed p r0 rs hrs ha
          omega
        · exact ht r0 (by omega) hm.symm
    · exact hr (List.mem_cons_of_mem _ hm)

/-- The result of `lowerCamel` has no byte `_`. -/
theorem lowerCamel_underscore_free (tbl : CaseTable) (s : GoString)
    (h : IsAscii s ∨ ∀ r, 0x7F < r → unicodeToUpper tbl r ≠ 0x5F) :
    (0x5F : Byte) ∉ lowerCamel tbl s := by
  rw [lowerCamel_eq_lowerCamelSpec, lowerCamelSpec]
  have hn := splitByte_no_sep 0x5F s
  have hmem := mem_of_mem_splitByte 0x5F s
  cases hs : splitByte 0x5F s with
  | nil => simp
  | cons first rest =>
    rw [hs] at hn hmem
    simp only []
    intro hm
    rcases List.mem_append.mp hm with hm | hm
    · exact hn first (List.mem_cons_self _ _) hm
    · have key : ∀ l : List GoString, (∀ p ∈ l, p ∈ rest) →
          (0x5F : Byte) ∉ concatAll (l.map (upperFirstSegment tbl)) := by
        intro l
        induction l with
        | nil => intro _; simp [concatAll]
        | cons p l ih =>
          intro hl hc
          simp only [List.map_cons, concatAll, List.mem_append] at hc
          have hpr : p ∈ rest := hl p (List.mem_cons_self _ _)
          rcases hc with hc | hc
          · refine upperFirstSegment_underscore tbl p (hn p (List.mem_cons_of_mem _ hpr)) ?_ hc
            rcases h with ha | ht
            · left
              cases p with
              | nil => trivial
              | cons b t =>
                exact ha b (hmem _ (List.mem_cons_of_mem _ hpr) b (List.mem_cons_self _ _))
            · exact Or.inr ht
          · exact ih (fun q hq => hl q (List.mem_cons_of_mem _ hq)) hc
      exact key rest (fun p hp => hp) hm

theorem asciiTable_upper_ne_underscore :
    ∀ r : Int, 0x7F < r → unicodeToUpper asciiTable r ≠ 0x5F := by
  intro r hr
  rw [unicodeToUpper, if_neg (by omega)]
  show r ≠ 0x5F
  omega

/-- What `buildFileData` returns, with its enums and messages cleared, is the
result of `BuildFileData` of `gen.go`. -/
theorem buildFileData_cleared (tbl : CaseTable) (f : ProtoFile) (lang : GoString)
    (data : FileData) (h : buildFileData tbl f lang = some data) :
    BuildFileData tbl f lang = { data with enums := [], messages := [] } ∧
    (lang ≠ str "kotlin" → BuildFileData tbl f lang = data) := by
  obtain ⟨msgs, hm, rfl⟩ := (buildFileData_eq_some_iff tbl f lang data).mp h
  have he : (BuildFileData tbl f lang).enums = [] := by rw [BuildFileData_eq]
  have hs : (BuildFileData tbl f lang).messages = [] := by rw [BuildFileData_eq]
  constructor
  · cases hb : BuildFileData tbl f lang
    rw [hb] at he hs
    simp only at he hs
    subst he hs
    rfl
  · intro hk
    rw [if_neg hk] at hm
    subst hm
    cases hb : BuildFileData tbl f lang
    rw [hb] at he hs
    simp only at he hs
    subst he hs
    simp only [if_neg hk]

/-! ## The claims -/

/-- C1: `lowerFirst` is idempotent, `lowerFirst(lowerFirst(s)) = lowerFirst(s)`.
For a string that starts with an ASCII byte this holds with any case table;
for every other string it holds as soon as `unicode.ToLower` maps scalar
values to scalar values and is idempotent on them. -/
theorem lowerFirst_idempotent (tbl : CaseTable) (s : GoString)
    (h : AsciiLed s ∨
      ((∀ r, ValidRune r → ValidRune (unicodeToLower tbl r)) ∧
        ∀ r, ValidRune r → unicodeToLower tbl (unicodeToLower tbl r) = unicodeToLower tbl r)) :
    lowerFirst tbl (lowerFirst tbl s) = lowerFirst tbl s := by
  by_cases hs : s = []
  · subst hs; rfl
  · obtain ⟨r0, rs, hr, hv0, _⟩ := runes_cons_of_ne_nil s hs
    have hkey : ValidRune (unicodeToLower tbl r0) ∧
        unicodeToLower tbl (unicodeToLower tbl r0) = unicodeToLower tbl r0 := by
      rcases h with ha | ⟨h1, h2⟩
      · exact unicodeToLower_ascii tbl r0 (runes_head_of_asciiLed s r0 rs hr ha)
      · exact ⟨h1 r0 hv0, h2 r0 hv0⟩
    have h1 : lowerFirst tbl s = stringOfRunes (unicodeToLower tbl r0 :: rs) := by
      rw [lowerFirst, if_neg hs, hr, mapFirst]
    have h2 := runes_lowerFirst_of_valid tbl s r0 rs hr hkey.1
    have hne : lowerFirst tbl s ≠ [] := by rw [h1]; exact stringOfRunes_ne_nil _ _
    conv_lhs => rw [lowerFirst, if_neg hne, h2, mapFirst, hkey.2]
    exact h1.symm

/-- Witness of C1: an ASCII identifier, and a string that starts with a
two-byte code point under the table that maps ASCII only. -/
theorem lowerFirst_idempotent_witness :
    lowerFirst asciiTable (lowerFirst asciiTable (str "SendMessage"))
        = lowerFirst asciiTable (str "SendMessage") ∧
    lowerFirst asciiTable (lowerFirst asciiTable (str "Éa"))
        = lowerFirst asciiTable (str "Éa") :=
  ⟨lowerFirst_idempotent asciiTable (str "SendMessage") (Or.inl (by decide)),
   lowerFirst_idempotent asciiTable (str "Éa")
    (Or.inr ⟨asciiTable_lower_valid, asciiTable_lower_idem⟩)⟩

/-- C2: `lowerFirst` returns the empty string for the empty string; for a
non-empty `s` the result has the code points of `s`, in the same order and as
many, with the first one replaced by its lower-case mapping; and
`lowerFirst("SendMessage") = "sendMessage"`.  The string starts with an ASCII
byte, or `unicode.ToLower` maps scalar values to scalar values. -/
theorem lowerFirst_spec (tbl : CaseTable) (s : GoString) (hs : s ≠ [])
    (h : AsciiLed s ∨ ∀ r, ValidRune r → ValidRune (unicodeToLower tbl r)) :
    lowerFirst tbl [] = [] ∧
    (∃ r0 rs, runes s = r0 :: rs ∧
        runes (lowerFirst tbl s) = unicodeToLower tbl r0 :: rs ∧
        (runes (lowerFirst tbl s)).length = (runes s).length) ∧
    lowerFirst tbl (str "SendMessage") = str "sendMessage" := by
  refine ⟨rfl, ?_, rfl⟩
  obtain ⟨r0, rs, hr, hv0, _⟩ := runes_cons_of_ne_nil s hs
  have hkey : ValidRune (unicodeToLower tbl r0) := by
    rcases h with ha | h1
    · exact (unicodeToLower_ascii tbl r0 (runes_head_of_asciiLed s r0 rs hr ha)).1
    · exact h1 r0 hv0
  have h2 := runes_lowerFirst_of_valid tbl s r0 rs hr hkey
  exact ⟨r0, rs, hr, h2, by rw [h2, hr]; rfl⟩

/-- Witness of C2 at a string with a two-byte first code point. -/
theorem lowerFirst_spec_witness :
    lowerFirst asciiTable [] = [] ∧
    (∃ r0 rs, runes (str "Éa") = r0 :: rs ∧
        runes (lowerFirst asciiTable (str "Éa")) = unicodeToLower asciiTable r0 :: rs ∧
        (runes (lowerFirst asciiTable (str "Éa"))).length = (runes (str "Éa")).length) ∧
    lowerFirst asciiTable (str "SendMessage") = str "sendMessage" :=
  lowerFirst_spec asciiTable (str "Éa") (by decide) (Or.inr asciiTable_lower_valid)

/-- C3: `lowerCamel(s)` is the concatenation of the segments of `s` between
its `_` bytes, the first segment unchanged and every later non-empty segment
with its first code point upper-cased and its other code points kept; empty
segments contribute nothing.  On a segment of well-formed UTF-8 the bytes
after the first code point are unchanged.  `lowerCamel("user_id") = "userId"`
and `lowerCamel("a__b") = "aB"`. -/
theorem lowerCamel_spec (tbl : CaseTable) (s : GoString) :
    lowerCamel tbl s = lowerCamelSpec tbl s ∧
    upperFirstSegment tbl [] = [] ∧
    (∀ p, stringOfRunes (runes p) = p → upperFirstSegment tbl p = upperFirstKeepRest tbl p) ∧
    lowerCamel tbl (str "user_id") = str "userId" ∧
    lowerCamel tbl (str "a__b") = str "aB" :=
  ⟨lowerCamel_eq_lowerCamelSpec tbl s, rfl, upperFirstSegment_eq_keepRest tbl, rfl, rfl⟩

/-- Witness of C3: the segment `id` of `user_id` is well-formed UTF-8. -/
theorem lowerCamel_spec_witness :
    upperFirstSegment asciiTable (str "id") = upperFirstKeepRest asciiTable (str "id") :=
  (lowerCamel_spec asciiTable (str "user_id")).2.2.1 (str "id") (by decide)

/-- C4: `lowerCamel` neither adds nor removes characters other than the `_`
separators: the result has as many code points as `s` has, less the number of
`_` characters of `s` (which is also the number of `_` bytes); on a string of
ASCII bytes the same holds of the length in bytes. -/
theorem lowerCamel_length (tbl : CaseTable) (s : GoString) :
    (runes (lowerCamel tbl s)).length = (runes s).length - (runes s).count 0x5F ∧
    (runes s).count 0x5F ≤ (runes s).length ∧
    (runes s).count 0x5F = s.count 0x5F ∧
    (IsAscii s → (lowerCamel tbl s).length = s.length - s.count 0x5F) := by
  have hmain := runes_lowerCamel_length tbl s
  have hc := count_runes_underscore s
  refine ⟨by omega, by omega, hc, ?_⟩
  intro ha
  rw [← runes_length_ascii _ (lowerCamel_ascii tbl s ha), ← runes_length_ascii s ha]
  omega

set_option maxRecDepth 4000 in
/-- Witness of C4: the length in bytes on the ASCII string `"user_id"`. -/
theorem lowerCamel_length_witness :
    (lowerCamel asciiTable (str "user_id")).length
      = (str "user_id").length - (str "user_id").count 0x5F :=
  (lowerCamel_length asciiTable (str "user_id")).2.2.2 (by decide)

/-- C5: `toSnakeCase(s)` walks the code points of `s` in order, emits `_`
before every upper-case code point that is not the first one, and emits the
lower-case mapping of every code point, nothing else.
`toSnakeCase("SendMessage") = "send_message"` and `toSnakeCase("") = ""`. -/
theorem toSnakeCase_spec (tbl : CaseTable) (s : GoString) :
    toSnakeCase tbl s = toSnakeCaseSpec tbl s ∧
    toSnakeCase tbl (str "SendMessage") = str "send_message" ∧
    toSnakeCase tbl (str "") = str "" :=
  ⟨toSnakeCase_eq_toSnakeCaseSpec tbl s, rfl, rfl⟩

/-- C6: for a repeated field of any kind, also of enum, message or unknown
kind and whatever its pointers, `kotlinDefault` returns `"emptyList()"`. -/
theorem kotlinDefault_repeated (fd : ProtoField) (h : fd.isList = true) :
    kotlinDefault fd = some (str "emptyList()") := by
  rw [kotlinDefault, if_pos h]

/-- Witness of C6: a repeated field of enum kind whose enum pointer is nil. -/
theorem kotlinDefault_repeated_witness :
    kotlinDefault ⟨str "tags", 3, true, .EnumKind, none, none⟩ = some (str "emptyList()") :=
  kotlinDefault_repeated ⟨str "tags", 3, true, .EnumKind, none, none⟩ rfl

/-- C7: for a singular field of enum kind whose enum declares at least one
value, `kotlinDefault` returns the enum's name, a dot, and the name of the
first declared value. -/
theorem kotlinDefault_enum_first (fd : ProtoField) (e : ProtoEnum) (v : ProtoEnumValue)
    (vs : List ProtoEnumValue) (hl : fd.isList = false) (hk : fd.kind = .EnumKind)
    (he : fd.enum = some e) (hv : e.values = v :: vs) :
    kotlinDefault fd = some (e.name ++ str "." ++ v.name) := by
  rw [kotlinDefault, if_neg (by simp [hl]), hk]
  simp only [he, Option.some_bind, hv, List.length_cons, Nat.zero_lt_succ, if_true,
    List.head?_cons, Option.map_some']

/-- Witness of C7: the first declared value is numbered 5 and the value
numbered 0 comes second. -/
theorem kotlinDefault_enum_first_witness :
    kotlinDefault ⟨str "color", 1, false, .EnumKind,
        some ⟨str "Color", [⟨str "RED", 5⟩, ⟨str "GREEN", 0⟩]⟩, none⟩
      = some (str "Color.RED") :=
  kotlinDefault_enum_first _ ⟨str "Color", [⟨str "RED", 5⟩, ⟨str "GREEN", 0⟩]⟩ ⟨str "RED", 5⟩
    [⟨str "GREEN", 0⟩] rfl rfl rfl rfl

/-- C8: for a singular field of enum kind whose enum declares no value,
`kotlinDefault` returns the enum's name followed by `.UNKNOWN`; it does not
panic. -/
theorem kotlinDefault_enum_empty (fd : ProtoField) (e : ProtoEnum)
    (hl : fd.isList = false) (hk : fd.kind = .EnumKind) (he : fd.enum = some e)
    (hv : e.values = []) :
    kotlinDefault fd = some (e.name ++ str ".UNKNOWN") := by
  rw [kotlinDefault, if_neg (by simp [hl]), hk]
  simp only [he, Option.some_bind, hv, List.length_nil, Nat.lt_irrefl, if_false]

/-- Witness of C8: an enum `Color` without values. -/
theorem kotlinDefault_enum_empty_witness :
    kotlinDefault ⟨str "color", 1, false, .EnumKind, some ⟨str "Color", []⟩, none⟩
      = some (str "Color.UNKNOWN") :=
  kotlinDefault_enum_empty _ ⟨str "Color", []⟩ rfl rfl rfl rfl

/-- Outside the package names of protobuf, where a segment may start with a
multi-byte character, `swiftTypePrefix` upper-cases the first byte of the
segment, `p[:1]`, not its first code point: on `日本.v1` the lead byte of `日`
becomes U+FFFD and its continuation bytes stay behind.  The runes involved,
U+65E5 and U+FFFD, have no case mapping in Go's tables either. -/
theorem swiftTypePrefix_first_byte :
    swiftTypePrefix asciiTable (str "日本.v1")
        = [0xEF, 0xBF, 0xBD, 0x97, 0xA5, 0xE6, 0x9C, 0xAC, 0x5F, 0x56, 0x31, 0x5F] ∧
    swiftTypePrefixSpec asciiTable (str "日本.v1") = str "日本_V1_" ∧
    swiftTypePrefix asciiTable (str "日本.v1")
      ≠ swiftTypePrefixSpec asciiTable (str "日本.v1") := by
  decide

/-- C9: `swiftTypePrefix("")` is `""`; for a package name whose `.`-separated
segments are each empty or led by an ASCII byte, as those of every protobuf
package name are, the result is the segments, each non-empty one with its
first code point upper-cased and the rest unchanged, joined with `_` and
followed by one `_`.  `swiftTypePrefix("a.b") = "A_B_"`. -/
theorem swiftTypePrefix_ascii (tbl : CaseTable) (pkg : GoString)
    (h : ∀ p ∈ splitByte 0x2E pkg, AsciiLed p) :
    swiftTypePrefix tbl pkg = swiftTypePrefixSpec tbl pkg ∧
    swiftTypePrefixSpec tbl [] = [] ∧
    swiftTypePrefix tbl (str "a.b") = str "A_B_" ∧ swiftTypePrefix tbl (str "") = str "" :=
  ⟨swiftTypePrefix_eq_spec_of_asciiLed tbl pkg h, rfl, rfl, rfl⟩

/-- Witness of C9 at the package `chat.v1`. -/
theorem swiftTypePrefix_ascii_witness :
    swiftTypePrefix asciiTable (str "chat.v1") = swiftTypePrefixSpec asciiTable (str "chat.v1") :=
  (swiftTypePrefix_ascii asciiTable (str "chat.v1") (by decide)).1

/-- C10: `kotlinType` is the fixed table on the kind of a singular field, and
`"List<" + t + ">"` on a repeated field, `t` being what the table gives for
its kind. -/
theorem kotlinType_table (fd : ProtoField) (lang : GoString) :
    kotlinType fd lang
      = if fd.isList then (kotlinTypeTable fd).map fun t => str "List<" ++ t ++ str ">"
        else kotlinTypeTable fd := by
  rw [kotlinType, kotlinScalarType_eq_table]

/-- C11: for a singular field that is not of enum kind `kotlinDefault` is the
fixed table: bool gives `false`, the signed 32-bit kinds `0`, the signed 64-bit
kinds `0L`, the unsigned 32-bit kinds `0u`, the unsigned 64-bit kinds `0uL`,
float `0f` and double `0.0` (both `0` with a suffix for the width), string
`""`, bytes `byteArrayOf()`, message and group the message name followed by
`()`, any other kind `null`. -/
theorem kotlinDefault_table (fd : ProtoField) (hl : fd.isList = false)
    (hk : fd.kind ≠ .EnumKind) :
    kotlinDefault fd = kotlinDefaultTable fd ∧
    str "0" ++ str "f" = str "0f" ∧ str "0" ++ str ".0" = str "0.0" := by
  refine ⟨?_, rfl, rfl⟩
  rw [kotlinDefault, if_neg (by simp [hl])]
  unfold kotlinDefaultTable
  cases h : fd.kind <;> first | exact absurd h hk | (simp; done) | (simp; rfl)

/-- Witness of C11: a singular field of kind double. -/
theorem kotlinDefault_table_witness :
    kotlinDefault ⟨str "ratio", 2, false, .DoubleKind, none, none⟩ = some (str "0.0") :=
  (kotlinDefault_table ⟨str "ratio", 2, false, .DoubleKind, none, none⟩ rfl (by decide)).1

/-- C12: for every file and every language, `swift` included, `buildFileData`
returns one service per declared service, in order, under the declared name
and with the prefix `Name + "/"`, and one method per declared method, in
order, under the declared name, with `MethodName = lowerFirst(Name)` and the
server-streaming flag of the descriptor.  The same holds of `BuildFileData` of
`gen.go`.  `buildFileData` returns on every file as `protogen` builds it, and
on any file when the language is not `kotlin`. -/
theorem buildFileData_services (tbl : CaseTable) (f : ProtoFile) (lang : GoString)
    (h : WellFormedFile f ∨ lang ≠ str "kotlin") :
    (∃ data, buildFileData tbl f lang = some data ∧ ServicesAsDeclared tbl f data) ∧
    ServicesAsDeclared tbl f (BuildFileData tbl f lang) := by
  obtain ⟨data, hd⟩ := buildFileData_total tbl f lang h
  have hs := (buildFileData_some tbl f lang data hd).2.2.2
  refine ⟨⟨data, hd, ?_⟩, servicesAsDeclared_BuildFileData tbl f lang⟩
  have := servicesAsDeclared_BuildFileData tbl f lang
  unfold ServicesAsDeclared at this ⊢
  rw [hs]
  exact this

/-- Witness of C12: the file `shopFile` for `swift`. -/
theorem buildFileData_services_witness :
    (∃ data, buildFileData asciiTable shopFile (str "swift") = some data ∧
      ServicesAsDeclared asciiTable shopFile data) ∧
    ServicesAsDeclared asciiTable shopFile (BuildFileData asciiTable shopFile (str "swift")) :=
  buildFileData_services asciiTable shopFile (str "swift") (Or.inl (by decide))

/-- C13: for `swift` the input and the output of every method are
`swiftTypePrefix(P)` followed by the simple name of the message, `P` being the
package of the file that is generated, whichever package declares the message;
for every other language they are the bare simple names.  Both for
`buildFileData` and for `BuildFileData` of `gen.go`. -/
theorem buildFileData_type_refs (tbl : CaseTable) (f : ProtoFile) (lang : GoString)
    (h : WellFormedFile f ∨ lang ≠ str "kotlin") :
    (∃ data, buildFileData tbl f lang = some data ∧ TypeRefsAsSpecified tbl f lang data) ∧
    TypeRefsAsSpecified tbl f lang (BuildFileData tbl f lang) := by
  obtain ⟨data, hd⟩ := buildFileData_total tbl f lang h
  have hs := (buildFileData_some tbl f lang data hd).2.2.2
  refine ⟨⟨data, hd, ?_⟩, typeRefsAsSpecified_BuildFileData tbl f lang⟩
  have := typeRefsAsSpecified_BuildFileData tbl f lang
  unfold TypeRefsAsSpecified at this ⊢
  rw [hs]
  exact this

/-- Witness of C13: in `shopFile`, of package `shop.v1`, the method `PriceOf`
returns the message `Money` of the package `common`. -/
theorem buildFileData_type_refs_witness :
    (∃ data, buildFileData asciiTable shopFile (str "swift") = some data ∧
      TypeRefsAsSpecified asciiTable shopFile (str "swift") data) ∧
    TypeRefsAsSpecified asciiTable shopFile (str "swift")
      (BuildFileData asciiTable shopFile (str "swift")) :=
  buildFileData_type_refs asciiTable shopFile (str "swift") (Or.inr (by decide))

/-- C14: the package name of the IR is `generated` exactly when the language is
`kotlin` and the package of the file is empty, or the package of the file is
itself `generated`; in every other case it is the package of the file.  For
`buildFileData`, for `BuildFileData` of `gen.go` and for `buildServiceData` of
`protoc/main.go`. -/
theorem buildFileData_packageName (tbl : CaseTable) (f : ProtoFile) (lang : GoString)
    (h : WellFormedFile f ∨ lang ≠ str "kotlin") :
    (∃ data, buildFileData tbl f lang = some data ∧
      PackageNameAsSpecified f lang data.packageName) ∧
    PackageNameAsSpecified f lang (BuildFileData tbl f lang).packageName ∧
    PackageNameAsSpecified f lang (protocPackageName f lang) := by
  obtain ⟨data, hd⟩ := buildFileData_total tbl f lang h
  have hs := (buildFileData_some tbl f lang data hd).2.2.1
  have hb : PackageNameAsSpecified f lang (BuildFileData tbl f lang).packageName := by
    rw [BuildFileData_eq]
    exact packageNameAsSpecified_ite f lang
  exact ⟨⟨data, hd, by rw [hs]; exact hb⟩, hb, packageNameAsSpecified_ite f lang⟩

/-- Witness of C14: the file of the package `chat` for `kotlin`. -/
theorem buildFileData_packageName_witness :
    (∃ data, buildFileData asciiTable (chatFile (str "chat.proto") true) (str "kotlin")
        = some data ∧
      PackageNameAsSpecified (chatFile (str "chat.proto") true) (str "kotlin")
        data.packageName) ∧
    PackageNameAsSpecified (chatFile (str "chat.proto") true) (str "kotlin")
      (BuildFileData asciiTable (chatFile (str "chat.proto") true) (str "kotlin")).packageName ∧
    PackageNameAsSpecified (chatFile (str "chat.proto") true) (str "kotlin")
      (protocPackageName (chatFile (str "chat.proto") true) (str "kotlin")) :=
  buildFileData_packageName asciiTable (chatFile (str "chat.proto") true) (str "kotlin")
    (Or.inl (by decide))

/-- C15: for `kotlin`, `buildFileData` of `protoc-gen-kalam` builds every enum
and every message of the file, in order: an enum keeps its name and all its
values with their numbers, a message keeps its name and has one field per
declared field, in order, with `Name = lowerCamel(name)`, the declared number,
`KotlinType = kotlinType(field)` and `DefaultValue = kotlinDefault(field)`.
For every other language the enums and the messages are empty. -/
theorem buildFileData_declarations (tbl : CaseTable) (f : ProtoFile) (lang : GoString)
    (h : WellFormedFile f ∨ lang ≠ str "kotlin") :
    ∃ data, buildFileData tbl f lang = some data ∧
      (lang = str "kotlin" → DeclarationsAsDeclared tbl f lang data) ∧
      (lang ≠ str "kotlin" → data.enums = [] ∧ data.messages = []) := by
  obtain ⟨data, hd⟩ := buildFileData_total tbl f lang h
  refine ⟨data, hd, ?_, ?_⟩
  · intro hk
    obtain ⟨msgs, hm, rfl⟩ := (buildFileData_eq_some_iff tbl f lang data).mp hd
    rw [if_pos hk] at hm
    obtain ⟨h1, h2⟩ := messages_as_declared tbl lang f.messages msgs hm
    refine ⟨?_, h1, h2⟩
    simp only [if_pos hk]
    exact List.map_congr_left (fun e _ => buildEnum_eq e)
  · intro hk
    obtain ⟨msgs, hm, rfl⟩ := (buildFileData_eq_some_iff tbl f lang data).mp hd
    rw [if_neg hk] at hm
    simp only [if_neg hk, hm, and_self]

/-- Witness of C15: `shopFile`, whose enum has two values of the number 0. -/
theorem buildFileData_declarations_witness :
    ∃ data, buildFileData asciiTable shopFile (str "kotlin") = some data ∧
      (str "kotlin" = str "kotlin" → DeclarationsAsDeclared asciiTable shopFile (str "kotlin") data) ∧
      (str "kotlin" ≠ str "kotlin" → data.enums = [] ∧ data.messages = []) :=
  buildFileData_declarations asciiTable shopFile (str "kotlin") (Or.inl (by decide))

/-- C16: for a schema path that ends in `.proto` the generated file is named
by the path without `.proto`, followed by `.klm.kt` for `kotlin`, `.klm.swift`
for `swift` and `.klm.dart` for `dart`, in `protoc-gen-kalam` and in
`protoc-gen-klm`; `pkg/thing.proto` with `kotlin` gives `pkg/thing.klm.kt`. -/
theorem generated_file_name (base : GoString) :
    kalamFileName (str "kotlin") (base ++ str ".proto") = base ++ str ".klm.kt" ∧
    kalamFileName (str "swift") (base ++ str ".proto") = base ++ str ".klm.swift" ∧
    kalamFileName (str "dart") (base ++ str ".proto") = base ++ str ".klm.dart" ∧
    klmFileName (str "kotlin") (base ++ str ".proto") = base ++ str ".klm.kt" ∧
    klmFileName (str "swift") (base ++ str ".proto") = base ++ str ".klm.swift" ∧
    klmFileName (str "dart") (base ++ str ".proto") = base ++ str ".klm.dart" ∧
    kalamFileName (str "kotlin") (str "pkg/thing.proto") = str "pkg/thing.klm.kt" ∧
    klmFileName (str "kotlin") (str "pkg/thing.proto") = str "pkg/thing.klm.kt" := by
  refine ⟨?_, ?_, ?_, ?_, ?_, ?_, by decide, by decide⟩ <;>
    simp only [kalamFileName, klmFileName, trimSuffix_append] <;> rfl

/-- C17: the end-to-end scenario.  For the file of package `chat` with the
message `Msg { string text = 1; }` and the service
`Chat { rpc Send(Msg) returns (Msg); }`, `buildFileData` for `kotlin` returns
the package name `chat`, the one message `Msg` with the one field `text` of
type `String`, number 1 and default `""`, and the one service `Chat` with the
prefix `Chat/` and the one method `Send`, called `send`, from `Msg` to `Msg`,
not streaming. -/
theorem buildFileData_chat (tbl : CaseTable) (path : GoString) (generate : Bool) :
    ∃ data, buildFileData tbl (chatFile path generate) (str "kotlin") = some data ∧
      data.packageName = str "chat" ∧
      data.messages = [⟨str "Msg", [⟨str "text", str "String", 1, str "\"\""⟩]⟩] ∧
      data.services =
        [⟨str "Chat", str "Chat/", [⟨str "Send", str "send", str "Msg", str "Msg", false⟩]⟩] :=
  ⟨_, rfl, rfl, rfl, rfl⟩

/-- C18: the skip invariant of the driver, in `protoc-gen-kalam` and in
`protoc-gen-klm`.  The loop and the whole run give the same result on the list
of files and on its sublist of the files whose flag is set: a file whose flag
is unset produces nothing and is not passed to `buildFileData`.  When every
flagged file is built and rendered without failure, the generated files are
one per flagged file, in the order of the input, each under the name of the
naming policy and with the text rendered from `buildFileData` of that file. -/
theorem driver_skip_invariant (tbl : CaseTable) (assets : Assets) (tmpl : Template)
    (lang : GoString) (files : List ProtoFile) :
    kalamLoop tbl tmpl lang files []
      = kalamLoop tbl tmpl lang (files.filter fun f => f.generate) [] ∧
    klmLoop tbl tmpl lang files []
      = klmLoop tbl tmpl lang (files.filter fun f => f.generate) [] ∧
    kalamRun tbl assets lang files
      = kalamRun tbl assets lang (files.filter fun f => f.generate) ∧
    klmRun tbl assets lang files = klmRun tbl assets lang (files.filter fun f => f.generate) ∧
    ((∀ f ∈ files, f.generate = true →
        (buildFileData tbl f lang).map (fun d => (tmpl.execute d).2) = some true) →
      ∃ stubs : List GeneratedFile,
        kalamLoop tbl tmpl lang files [] = some ⟨stubs, false⟩ ∧
        stubs.map (fun g => (g.name, some g.content))
          = (files.filter fun f => f.generate).map fun f =>
              (kalamFileName lang f.path,
                (buildFileData tbl f lang).map fun d => (tmpl.execute d).1)) ∧
    ((∀ f ∈ files, f.generate = true → (tmpl.execute (BuildFileData tbl f lang)).2 = true) →
      klmLoop tbl tmpl lang files []
        = ⟨(files.filter fun f => f.generate).map fun f =>
              ⟨klmFileName lang f.path, (tmpl.execute (BuildFileData tbl f lang)).1⟩, false⟩) := by
  refine ⟨kalamLoop_filter tbl tmpl lang files [], klmLoop_filter tbl tmpl lang files [],
    kalamRun_filter tbl assets lang files, klmRun_filter tbl assets lang files, ?_, ?_⟩
  · intro h
    obtain ⟨stubs, h1, h2⟩ := kalamLoop_ok tbl tmpl lang files []
      (fun f hf hg => (option_map_eq_some_iff_exists _ _ _).mp (h f hf hg))
    exact ⟨stubs, by simpa using h1, h2⟩
  · intro h
    simpa using klmLoop_ok tbl tmpl lang files [] h

/-- Witness of C18: a list whose first file has its flag unset and cannot be
built for `kotlin`, and whose second file is flagged. -/
theorem driver_skip_invariant_witness :
    (∃ stubs : List GeneratedFile,
      kalamLoop asciiTable sampleTemplate (str "kotlin")
          [skippedFile, chatFile (str "chat.proto") true] []
        = some ⟨stubs, false⟩ ∧
      stubs.map (fun g => (g.name, some g.content))
        = ([skippedFile, chatFile (str "chat.proto") true].filter fun f => f.generate).map
            fun f => (kalamFileName (str "kotlin") f.path,
              (buildFileData asciiTable f (str "kotlin")).map
                fun d => (sampleTemplate.execute d).1)) ∧
    klmLoop asciiTable sampleTemplate (str "kotlin")
        [skippedFile, chatFile (str "chat.proto") true] []
      = ⟨([skippedFile, chatFile (str "chat.proto") true].filter fun f => f.generate).map
          fun f => ⟨klmFileName (str "kotlin") f.path,
            (sampleTemplate.execute (BuildFileData asciiTable f (str "kotlin"))).1⟩, false⟩ :=
  ⟨(driver_skip_invariant asciiTable sampleAssets sampleTemplate (str "kotlin")
      [skippedFile, chatFile (str "chat.proto") true]).2.2.2.2.1 (by decide),
   (driver_skip_invariant asciiTable sampleAssets sampleTemplate (str "kotlin")
      [skippedFile, chatFile (str "chat.proto") true]).2.2.2.2.2 (by decide)⟩

/-- C19: atomicity of a run.  When rendering fails on a flagged file, no file
is observable: `protoc-gen-kalam` ends with the error response that carries no
file, the files rendered before the failure and the runtime file included, or,
if `buildFileData` panics on a flagged file before that, without a response;
`protoc-gen-klm` ends with the error response that carries no file. -/
theorem run_atomic (tbl : CaseTable) (assets : Assets) (tmpl : Template) (lang : GoString)
    (files : List ProtoFile)
    (hp : assets.parseTemplate (str "templates/" ++ lang ++ str ".tmpl") = some tmpl) :
    ((∃ f ∈ files, f.generate = true ∧
        (buildFileData tbl f lang).map (fun d => (tmpl.execute d).2) = some false) →
      observableFiles (kalamRun tbl assets lang files) = [] ∧
      ((∀ f ∈ files, f.generate = true → (buildFileData tbl f lang).isSome = true) →
        kalamRun tbl assets lang files = some ⟨true, []⟩)) ∧
    ((∃ f ∈ files, f.generate = true ∧ (tmpl.execute (BuildFileData tbl f lang)).2 = false) →
      klmRun tbl assets lang files = ⟨true, []⟩) := by
  constructor
  · rintro ⟨f, hf, hg, hm⟩
    have hfail := kalamLoop_fail tbl tmpl lang files []
      ⟨f, hf, hg, (option_map_eq_some_iff_exists _ _ _).mp hm⟩
    unfold kalamRun kalamCallback
    rw [hp]
    rcases hfail with ⟨h1, g, hg1, hg2, hg3⟩ | ⟨out, h2⟩
    · simp only [h1, Option.none_bind, Option.map_none', observableFiles, true_and]
      intro hall
      have := hall g hg1 hg2
      rw [hg3] at this
      cases this
    · simp only [h2, Option.some_bind, if_true, Option.map_some', pluginResponse, observableFiles,
        implies_true, and_self]
  · intro h
    obtain ⟨out, h2⟩ := klmLoop_fail tbl tmpl lang files [] h
    unfold klmRun klmCallback
    rw [hp]
    simp only [h2, pluginResponse, if_true]

/-- Witness of C19: three flagged files, rendering fails on the second.  When
the callback returns, the plugin holds the file rendered for the first one and
the file begun for the second one; the response carries neither. -/
theorem run_atomic_witness :
    (observableFiles (kalamRun asciiTable sampleAssets (str "dart")
        [chatFile (str "a.proto") true, badFile, chatFile (str "c.proto") true]) = [] ∧
      ((∀ f ∈ [chatFile (str "a.proto") true, badFile, chatFile (str "c.proto") true],
          f.generate = true → (buildFileData asciiTable f (str "dart")).isSome = true) →
        kalamRun asciiTable sampleAssets (str "dart")
          [chatFile (str "a.proto") true, badFile, chatFile (str "c.proto") true]
            = some ⟨true, []⟩)) ∧
    klmRun asciiTable sampleAssets (str "dart")
      [chatFile (str "a.proto") true, badFile, chatFile (str "c.proto") true] = ⟨true, []⟩ ∧
    kalamCallback asciiTable sampleAssets (str "dart")
      [chatFile (str "a.proto") true, badFile, chatFile (str "c.proto") true]
        = some ⟨[⟨str "a.klm.dart", str "a"⟩, ⟨str "b.klm.dart", str "b"⟩], true⟩ :=
  ⟨(run_atomic asciiTable sampleAssets sampleTemplate (str "dart")
      [chatFile (str "a.proto") true, badFile, chatFile (str "c.proto") true] rfl).1 (by decide),
   (run_atomic asciiTable sampleAssets sampleTemplate (str "dart")
      [chatFile (str "a.proto") true, badFile, chatFile (str "c.proto") true] rfl).2 (by decide),
   by decide⟩

/-- C20: `toSnakeCase` undoes `lowerCamel` on a well-formed field name: for a
string made of one or more segments joined by single `_`, each segment an
ASCII lower-case letter followed by ASCII lower-case letters and digits,
`toSnakeCase(lowerCamel(s)) = s`; for example `s = "user_id"`. -/
theorem toSnakeCase_lowerCamel (tbl : CaseTable) (segs : List GoString) (hne : segs ≠ [])
    (h : ∀ p ∈ segs, IsFieldSegment p) :
    toSnakeCase tbl (lowerCamel tbl (stringsJoin segs [0x5F])) = stringsJoin segs [0x5F] ∧
    toSnakeCase tbl (lowerCamel tbl (str "user_id")) = str "user_id" := by
  refine ⟨?_, rfl⟩
  cases segs with
  | nil => exact absurd rfl hne
  | cons p rest => exact snake_of_camel_segments tbl p rest h

set_option maxRecDepth 4000 in
/-- Witness of C20: the segments `user` and `id`. -/
theorem toSnakeCase_lowerCamel_witness :
    toSnakeCase asciiTable (lowerCamel asciiTable (stringsJoin [str "user", str "id"] [0x5F]))
        = stringsJoin [str "user", str "id"] [0x5F] ∧
    toSnakeCase asciiTable (lowerCamel asciiTable (str "user_id")) = str "user_id" :=
  toSnakeCase_lowerCamel asciiTable [str "user", str "id"] (by decide) (by decide)

/-- C21, as the code has it: `lowerCamel` of `protoc-gen-kotlinx` is not the
function of `protoc-gen-kalam`.  It subtracts 32 from the first code point of
a later segment whatever that code point is: the digit of `line_2` becomes
the control character U+0012 and the letter `I` of `user_ID` becomes `)`,
where `lowerCamel` of `protoc-gen-kalam` leaves both as they are. -/
theorem kotlinx_lowerCamel_digit :
    Kotlinx.lowerCamel (str "line_2") = str "line" ++ [0x12] ∧
    (∀ tbl : CaseTable, lowerCamel tbl (str "line_2") = str "line2") ∧
    Kotlinx.lowerCamel (str "user_ID") = str "user)D" ∧
    (∀ tbl : CaseTable, lowerCamel tbl (str "user_ID") = str "userID") :=
  ⟨by decide, fun _ => rfl, by decide, fun _ => rfl⟩

/-- C22: `BuildFileData` of `gen.go` is `buildFileData` of `protoc-gen-kalam`
with the enums and the messages cleared: the file name, the proto name, the
package name and the services are the same, and for every language but
`kotlin` the two results are equal. -/
theorem BuildFileData_refines (tbl : CaseTable) (f : ProtoFile) (lang : GoString)
    (h : WellFormedFile f ∨ lang ≠ str "kotlin") :
    ∃ data, buildFileData tbl f lang = some data ∧
      BuildFileData tbl f lang = { data with enums := [], messages := [] } ∧
      (BuildFileData tbl f lang).fileName = data.fileName ∧
      (BuildFileData tbl f lang).protoName = data.protoName ∧
      (BuildFileData tbl f lang).packageName = data.packageName ∧
      (BuildFileData tbl f lang).services = data.services ∧
      (lang ≠ str "kotlin" → BuildFileData tbl f lang = data) := by
  obtain ⟨data, hd⟩ := buildFileData_total tbl f lang h
  obtain ⟨h1, h2, h3, h4⟩ := buildFileData_some tbl f lang data hd
  obtain ⟨h5, h6⟩ := buildFileData_cleared tbl f lang data hd
  exact ⟨data, hd, h5, h1.symm, h2.symm, h3.symm, h4.symm, h6⟩

/-- Witness of C22: the file `shopFile`, which declares an enum and a message,
for `kotlin`. -/
theorem BuildFileData_refines_witness :
    ∃ data, buildFileData asciiTable shopFile (str "kotlin") = some data ∧
      BuildFileData asciiTable shopFile (str "kotlin")
        = { data with enums := [], messages := [] } ∧
      (BuildFileData asciiTable shopFile (str "kotlin")).fileName = data.fileName ∧
      (BuildFileData asciiTable shopFile (str "kotlin")).protoName = data.protoName ∧
      (BuildFileData asciiTable shopFile (str "kotlin")).packageName = data.packageName ∧
      (BuildFileData asciiTable shopFile (str "kotlin")).services = data.services ∧
      (str "kotlin" ≠ str "kotlin" → BuildFileData asciiTable shopFile (str "kotlin") = data) :=
  BuildFileData_refines asciiTable shopFile (str "kotlin") (Or.inl (by decide))

/-- C23: the result of `lowerCamel` contains no `_`, neither as a byte nor as
a code point, whatever underscores the name had; `lowerCamel("_user__id_")`
is `"UserId"`.  For a string of ASCII bytes this holds with any case table;
for every other string it holds as soon as `unicode.ToUpper` maps no rune
above U+007F to `_`. -/
theorem lowerCamel_no_underscore (tbl : CaseTable) (s : GoString)
    (h : IsAscii s ∨ ∀ r, 0x7F < r → unicodeToUpper tbl r ≠ 0x5F) :
    (0x5F : Byte) ∉ lowerCamel tbl s ∧
    (0x5F : Int) ∉ runes (lowerCamel tbl s) ∧
    lowerCamel tbl (str "_user__id_") = str "UserId" := by
  have hb := lowerCamel_underscore_free tbl s h
  exact ⟨hb, underscore_not_mem_runes _ _ (le_refl _) hb, rfl⟩

set_option maxRecDepth 4000 in
/-- Witness of C23: an ASCII name with leading, trailing and consecutive
underscores, and a name outside ASCII under the table that maps ASCII only. -/
theorem lowerCamel_no_underscore_witness :
    (0x5F : Byte) ∉ lowerCamel asciiTable (str "_user__id_") ∧
    (0x5F : Byte) ∉ lowerCamel asciiTable (str "é_ü") :=
  ⟨(lowerCamel_no_underscore asciiTable (str "_user__id_") (Or.inl (by decide))).1,
   (lowerCamel_no_underscore asciiTable (str "é_ü")
      (Or.inr asciiTable_upper_ne_underscore)).1⟩

end Kalam
